import Mathlib

/-!
Verification of the chef-choice-api recipe backend.

The development shallowly embeds the JavaScript source of the service:

* `JVal` models the JSON values produced by `JSON.parse` and manipulated by
  the handlers (numbers are kept exactly as a decimal mantissa and scale).
* `pValue`/`jsonParse` model `JSON.parse` (fuelled recursive descent over the
  JSON grammar, rejecting trailing garbage, duplicate object keys resolved
  last-value-wins at the first key position, as ECMA-262 does).
* `firstBraceMatch`/`extractCandidate` model the candidate selection
  performed by `result.match(/\x7b[\s\S]*\x7d/)` followed by the
  `jsonMatch ? jsonMatch[0] : result` ternary in src/index.js.
* `normalize` models the normalization block of POST /parse-url
  (src/index.js lines 195-215): extract a candidate, `JSON.parse` it,
  backfill the four canonical fields by JS truthiness, and on any caught
  exception build the fallback record.  The handlers are ES modules, hence
  strict mode: assigning a property on a primitive parse result throws a
  TypeError which the same catch turns into the fallback record; `normalize`
  reflects this by falling back whenever the parse result is neither an
  object nor an array.
* `Gate` and the `...Handler` functions model the request gating of the four
  POST endpoints up to their first collaborator call (OpenAI / Firebase).
-/

/-- JSON/JavaScript values as produced by JSON.parse and manipulated by the
normalization block.  `num m k` denotes the decimal number m / 10^k, stored
with the factor-of-ten reduced scale (`decToNum`).  `arr` carries both the
element list and the named properties a JS array object can acquire through
assignment (JSON.parse always yields arrays with no named properties; the
backfill assignments in strict mode succeed on arrays and add such
properties). -/
inductive JVal : Type where
  | null : JVal
  | bool (b : Bool) : JVal
  | num (m : Int) (k : Nat) : JVal
  | str (s : String) : JVal
  | arr (elems : List JVal) (props : List (String × JVal)) : JVal
  | obj (fields : List (String × JVal)) : JVal

/-- Property lookup in an insertion-ordered field list (JS own-property
lookup; keys are unique in every list the parser or the handlers build). -/
def lookupField : List (String × JVal) → String → Option JVal
  | [], _ => none
  | (k0, v0) :: r, k => if k0 = k then some v0 else lookupField r k

/-- Property assignment on an insertion-ordered field list: an existing key
keeps its position and gets the new value, a new key is appended (JS
own-property assignment order semantics). -/
def setField : List (String × JVal) → String → JVal → List (String × JVal)
  | [], k, v => [(k, v)]
  | (k0, v0) :: r, k, v =>
    if k0 = k then (k0, v) :: r else (k0, v0) :: setField r k v

/-- JavaScript truthiness of a JSON value: null, false, 0 and the empty
string are falsy; every array and object (empty or not) is truthy. -/
def truthy : JVal → Bool
  | .null => false
  | .bool b => b
  | .num m _ => decide (m ≠ 0)
  | .str s => decide (s ≠ "")
  | .arr _ _ => true
  | .obj _ => true

/-- Reading property `k` of a value: objects and arrays expose their named
properties, primitives have none of the recipe fields. -/
def getProp (v : JVal) (k : String) : Option JVal :=
  match v with
  | .obj fs => lookupField fs k
  | .arr _ ps => lookupField ps k
  | _ => none

/-- Writing property `k` of an object or array (primitives are never the
target of an assignment in the embedded code path). -/
def putProp (v : JVal) (k : String) (w : JVal) : JVal :=
  match v with
  | .obj fs => .obj (setField fs k w)
  | .arr es ps => .arr es (setField ps k w)
  | x => x

/-! ### JSON.parse -/

/-- JSON whitespace skipping: space, tab, line feed, carriage return. -/
def skipWs : List Char → List Char
  | [] => []
  | c :: r =>
    if c = ' ' ∨ c = '\t' ∨ c = '\n' ∨ c = '\r' then skipWs r else c :: r

/-- Decimal digit test. -/
def isDigitCh (c : Char) : Bool := '0' ≤ c && c ≤ '9'

/-- Longest decimal-digit run at the head of the input. -/
def spanDigits : List Char → (List Char × List Char)
  | [] => ([], [])
  | c :: r =>
    if isDigitCh c then
      let p := spanDigits r
      (c :: p.1, p.2)
    else ([], c :: r)

/-- Value of a decimal digit character. -/
def digVal (c : Char) : Nat := c.toNat - 48

/-- Left fold of decimal digits onto an accumulator. -/
def digitsToNat : Nat → List Char → Nat
  | acc, [] => acc
  | acc, c :: r => digitsToNat (acc * 10 + digVal c) r

/-- Value of a hexadecimal digit character, if any. -/
def hexVal (c : Char) : Option Nat :=
  if isDigitCh c then some (c.toNat - 48)
  else if 'a' ≤ c ∧ c ≤ 'f' then some (c.toNat - 87)
  else if 'A' ≤ c ∧ c ≤ 'F' then some (c.toNat - 55)
  else none

/-- Reducing a decimal mantissa/scale pair: factors of ten move out of the
fractional part, so each numeric value has one stored spelling. -/
def decToNum : Int → Nat → Int × Nat
  | m, 0 => (m, 0)
  | m, k + 1 => if m % 10 = 0 then decToNum (m / 10) k else (m, k + 1)

mutual

/-- JSON string body parser, applied after the opening quote: plain
characters must not be control characters; a backslash starts an escape. -/
def pString : List Char → Option (List Char × List Char)
  | [] => none
  | c :: r =>
    if c = '"' then some ([], r)
    else if c = '\\' then pEsc r
    else if c.toNat < 32 then none
    else (pString r).map (fun p => (c :: p.1, p.2))

/-- One JSON string escape after the backslash: the short escapes, or a
4-digit hex escape, with surrogate pairs combined into one scalar value and
lone surrogates rejected. -/
def pEsc : List Char → Option (List Char × List Char)
  | [] => none
  | c :: r2 =>
    if c = '"' then (pString r2).map (fun p => ('"' :: p.1, p.2))
    else if c = '\\' then (pString r2).map (fun p => ('\\' :: p.1, p.2))
    else if c = '/' then (pString r2).map (fun p => ('/' :: p.1, p.2))
    else if c = 'b' then (pString r2).map (fun p => ('\x08' :: p.1, p.2))
    else if c = 'f' then (pString r2).map (fun p => ('\x0c' :: p.1, p.2))
    else if c = 'n' then (pString r2).map (fun p => ('\n' :: p.1, p.2))
    else if c = 'r' then (pString r2).map (fun p => ('\r' :: p.1, p.2))
    else if c = 't' then (pString r2).map (fun p => ('\t' :: p.1, p.2))
    else if c = 'u' then
      match r2 with
      | a :: b :: cc :: d :: r3 =>
        (match hexVal a, hexVal b, hexVal cc, hexVal d with
        | some ha, some hb, some hc, some hd =>
          let n := ((ha * 16 + hb) * 16 + hc) * 16 + hd
          if 0xd800 ≤ n ∧ n ≤ 0xdbff then
            match r3 with
            | '\\' :: 'u' :: e :: f :: g :: h :: r4 =>
              (match hexVal e, hexVal f, hexVal g, hexVal h with
              | some he, some hf, some hg, some hh =>
                let m := ((he * 16 + hf) * 16 + hg) * 16 + hh
                if 0xdc00 ≤ m ∧ m ≤ 0xdfff then
                  (pString r4).map (fun p =>
                    (Char.ofNat (0x10000 + (n - 0xd800) * 0x400 + (m - 0xdc00)) :: p.1, p.2))
                else none
              | _, _, _, _ => none)
            | _ => none
          else if 0xdc00 ≤ n ∧ n ≤ 0xdfff then none
          else (pString r3).map (fun p => (Char.ofNat n :: p.1, p.2))
        | _, _, _, _ => none)
      | _ => none
    else none

end

/-- Sign and digits of an exponent (after the e/E marker). -/
def pExpTail : List Char → Option (Int × List Char)
  | [] => none
  | c :: r =>
    if c = '+' then
      (if (spanDigits r).1.isEmpty then none
       else some ((digitsToNat 0 (spanDigits r).1 : Int), (spanDigits r).2))
    else if c = '-' then
      (if (spanDigits r).1.isEmpty then none
       else some (-(digitsToNat 0 (spanDigits r).1 : Int), (spanDigits r).2))
    else
      (if (spanDigits (c :: r)).1.isEmpty then none
       else some ((digitsToNat 0 (spanDigits (c :: r)).1 : Int), (spanDigits (c :: r)).2))

/-- Optional exponent part of a JSON number: e or E, an optional sign, and
at least one digit; absence yields exponent zero. -/
def pExp : List Char → Option (Int × List Char)
  | [] => some (0, [])
  | c :: r =>
    if c = 'e' ∨ c = 'E' then pExpTail r
    else some (0, c :: r)

/-- Optional fraction part of a JSON number: a dot followed by at least one
digit; absence yields no fractional digits. -/
def pFrac : List Char → Option (List Char × List Char)
  | [] => some ([], [])
  | c :: r =>
    if c = '.' then
      (if (spanDigits r).1.isEmpty then none
       else some ((spanDigits r).1, (spanDigits r).2))
    else some ([], c :: r)

/-- Digits, fraction and exponent of a JSON number after an optional minus
sign: an integer part without a redundant leading zero, an optional
fraction, an optional exponent; the resulting decimal is stored reduced by
`decToNum`. -/
def pNumCore (neg : Bool) (l : List Char) : Option (JVal × List Char) :=
  match spanDigits l with
  | ([], _) => none
  | (d :: ds, l2) =>
    if d = '0' ∧ ds ≠ [] then none
    else
      match pFrac l2 with
      | none => none
      | some (fs, l3) =>
        match pExp l3 with
        | none => none
        | some (e, l4) =>
          let mAbs : Nat := digitsToNat 0 (d :: ds ++ fs)
          let m0 : Int := if neg then -(mAbs : Int) else (mAbs : Int)
          let scale : Int := (fs.length : Int) - e
          if scale ≤ 0 then
            some (.num (m0 * (10 : Int) ^ (-scale).toNat) 0, l4)
          else
            let p := decToNum m0 scale.toNat
            some (.num p.1 p.2, l4)

/-- JSON number parser: optional minus sign, then `pNumCore`. -/
def pNumber : List Char → Option (JVal × List Char)
  | [] => none
  | c :: r => if c = '-' then pNumCore true r else pNumCore false (c :: r)

/-- Duplicate keys collapse as repeated JS property creation does: the first
occurrence fixes the position, the last fixes the value. -/
def collapseFields (fs : List (String × JVal)) : List (String × JVal) :=
  fs.foldl (fun acc kv => setField acc kv.1 kv.2) []

mutual

/-- Fuelled JSON value parser (recursive descent).  The fuel only bounds the
nesting of values; `jsonParse` supplies input length + 1 which is always
sufficient (`pValue_adequate`). -/
def pValue : Nat → List Char → Option (JVal × List Char)
  | 0, _ => none
  | fuel + 1, l =>
    match skipWs l with
    | [] => none
    | c :: r =>
      if c = 'n' then
        match r with
        | 'u' :: 'l' :: 'l' :: r2 => some (.null, r2)
        | _ => none
      else if c = 't' then
        match r with
        | 'r' :: 'u' :: 'e' :: r2 => some (.bool true, r2)
        | _ => none
      else if c = 'f' then
        match r with
        | 'a' :: 'l' :: 's' :: 'e' :: r2 => some (.bool false, r2)
        | _ => none
      else if c = '"' then (pString r).map (fun p => (.str (String.mk p.1), p.2))
      else if c = '[' then
        match skipWs r with
        | [] => none
        | c2 :: r2 =>
          if c2 = ']' then some (.arr [] [], r2)
          else
            match pItems fuel (c2 :: r2) with
            | some (vs, r3) => some (.arr vs [], r3)
            | none => none
      else if c = '\x7b' then
        match skipWs r with
        | [] => none
        | c2 :: r2 =>
          if c2 = '\x7d' then some (.obj [], r2)
          else
            match pFields fuel (c2 :: r2) with
            | some (fs, r3) => some (.obj (collapseFields fs), r3)
            | none => none
      else pNumber (c :: r)

/-- Comma-separated array items up to and including the closing bracket. -/
def pItems : Nat → List Char → Option (List JVal × List Char)
  | 0, _ => none
  | fuel + 1, l =>
    match pValue fuel l with
    | some (v, r) =>
      (match skipWs r with
      | [] => none
      | c :: r2 =>
        if c = ',' then
          match pItems fuel r2 with
          | some (vs, r3) => some (v :: vs, r3)
          | none => none
        else if c = ']' then some ([v], r2)
        else none)
    | none => none

/-- Comma-separated object members up to and including the closing brace;
the raw member list may repeat keys, `pValue` collapses it. -/
def pFields : Nat → List Char → Option (List (String × JVal) × List Char)
  | 0, _ => none
  | fuel + 1, l =>
    match skipWs l with
    | [] => none
    | c :: r =>
      if c = '"' then
        match pString r with
        | some (kcs, r2) =>
          (match skipWs r2 with
          | [] => none
          | c2 :: r3 =>
            if c2 = ':' then
              match pValue fuel r3 with
              | some (v, r4) =>
                (match skipWs r4 with
                | [] => none
                | c3 :: r5 =>
                  if c3 = ',' then
                    match pFields fuel r5 with
                    | some (fs, r6) => some ((String.mk kcs, v) :: fs, r6)
                    | none => none
                  else if c3 = '\x7d' then some ([(String.mk kcs, v)], r5)
                  else none)
              | none => none
            else none)
        | none => none
      else none

end

/-- JSON.parse: parse one value, allow surrounding whitespace, reject
trailing input. -/
def jsonParse (s : String) : Option JVal :=
  match pValue (s.length + 1) s.data with
  | some (v, rest) => if skipWs rest = [] then some v else none
  | none => none

/-! ### Candidate extraction, modelling result.match(/\x7b[\s\S]*\x7d/) -/

/-- Index of the last occurrence of a character. -/
def lastIdxOf (c : Char) : List Char → Option Nat
  | [] => none
  | x :: r =>
    match lastIdxOf c r with
    | some j => some (j + 1)
    | none => if x = c then some 0 else none

/-- Index of the first occurrence of a character. -/
def idxOfCh (c : Char) : List Char → Option Nat
  | [] => none
  | x :: r => if x = c then some 0 else (idxOfCh c r).map (fun i => i + 1)

/-- One attempt of the regex at the current position: an opening brace
followed by the greedy any-character run must end at the last closing brace
of the remainder. -/
def tryMatchAt : List Char → Option (List Char)
  | [] => none
  | c :: r =>
    if c = '\x7b' then (lastIdxOf '\x7d' r).map (fun j => '\x7b' :: r.take (j + 1))
    else none

/-- Leftmost match of /\x7b[\s\S]*\x7d/: try each start position from the
left, greedy to the last closing brace. -/
def firstBraceMatch : List Char → Option (List Char)
  | [] => none
  | c :: r =>
    match tryMatchAt (c :: r) with
    | some m => some m
    | none => firstBraceMatch r

/-- The string handed to JSON.parse: the regex match if there is one,
otherwise the whole model output (the `jsonMatch ? jsonMatch[0] : result`
ternary, src/index.js lines 198-199). -/
def extractCandidate (s : String) : String :=
  match firstBraceMatch s.data with
  | some m => String.mk m
  | none => s

/-- Candidate selection as the specification words it: the substring from
the first opening brace to the last closing brace of the text, or the whole
input when the text contains no such substring. -/
def specCandidate (s : String) : String :=
  match idxOfCh '\x7b' s.data, lastIdxOf '\x7d' s.data with
  | some i, some j =>
    if i < j then String.mk ((s.data.drop i).take (j + 1 - i)) else s
  | _, _ => s

/-! ### The normalization block of POST /parse-url (src/index.js 195-215) -/

/-- The empty JS array literal assigned by the backfill defaults. -/
def emptyArr : JVal := .arr [] []

/-- The fallback record built in the catch block (src/index.js line 214),
fields in source order. -/
def fallbackRecord (rawText : String) : JVal :=
  .obj [("title", .str "Imported Recipe"),
        ("steps", .str rawText),
        ("ingredientsByProcessingStep", emptyArr),
        ("tags", emptyArr)]

/-- One backfill statement `if (!parsedResult.k) parsedResult.k = w`:
assign the default exactly when the property is absent or falsy. -/
def backfillField (v : JVal) (k : String) (w : JVal) : JVal :=
  match getProp v k with
  | none => putProp v k w
  | some u => if truthy u then v else putProp v k w

/-- The four backfill statements of src/index.js lines 205-208 in source
order; `rawText` is the raw model output that becomes the steps default. -/
def backfillAll (v : JVal) (rawText : String) : JVal :=
  backfillField
    (backfillField
      (backfillField
        (backfillField v "title" (.str "Imported Recipe"))
        "ingredientsByProcessingStep" emptyArr)
      "steps" (.str rawText))
    "tags" emptyArr

/-- Whether a parse result is a JS object value (object or array).  On any
primitive the first backfill statement throws in strict mode (property
access on null, property creation on number/boolean/string), and the
enclosing catch then builds the fallback record. -/
def isObjOrArr : JVal → Bool
  | .obj _ => true
  | .arr _ _ => true
  | _ => false

/-- The whole normalization block of POST /parse-url: candidate extraction,
JSON.parse, truthiness backfill, and the catch-all fallback record.  (Named
normalizeRecipe because Mathlib already owns the bare name `normalize`; this
is the `normalize(rawText)` contract of the specification.) -/
def normalizeRecipe (rawText : String) : JVal :=
  match jsonParse (extractCandidate rawText) with
  | some v =>
    if isObjOrArr v then backfillAll v rawText else fallbackRecord rawText
  | none => fallbackRecord rawText

/-! ### Endpoint gating -/

/-- Outcome of a handler up to its first collaborator call: an early HTTP
response, or `proceed` carrying the data handed to the collaborator. -/
inductive Gate (α : Type) : Type where
  | unauthorized : Gate α
  | badRequest (msg : String) : Gate α
  | serverError (msg : String) : Gate α
  | invalidToken : Gate α
  | forbidden : Gate α
  | proceed (a : α) : Gate α

/-- The configured shared secret: the API_SECRET_KEY environment variable
when set and non-empty, else the hard-coded default (the JS `||`). -/
def expectedKey (env : Option String) : String :=
  match env with
  | some e => if e = "" then "chef-choice-mobile-app-2025" else e
  | none => "chef-choice-mobile-app-2025"

/-- The `apiKey !== expectedApiKey` test: an absent header never equals the
configured string. -/
def apiKeyMismatch (apiKey env : Option String) : Bool :=
  match apiKey with
  | none => true
  | some k => decide (k ≠ expectedKey env)

/-- POST /parse-recipe gating (src/index.js 49-87): api key, then the text
field must be a truthy string, then the length cap, then the OpenAI call. -/
def parseRecipeHandler (apiKey env : Option String) (text : Option JVal) :
    Gate String :=
  if apiKeyMismatch apiKey env then .unauthorized
  else
    match text with
    | some (.str s) =>
      if s = "" then .badRequest "Invalid request: text is required"
      else if 15000 < s.length then
        .badRequest "Text too long. Maximum 15000 characters allowed."
      else .proceed s
    | _ => .badRequest "Invalid request: text is required"

/-- POST /parse-url gating (src/index.js 120-144): api key, then the url
field must be a truthy string, then `new URL(url)` must not throw (the URL
constructor is the collaborator-supplied `urlOk`), then the fetch. -/
def parseUrlHandler (urlOk : String → Bool) (apiKey env : Option String)
    (url : Option JVal) : Gate String :=
  if apiKeyMismatch apiKey env then .unauthorized
  else
    match url with
    | some (.str u) =>
      if u = "" then .badRequest "Invalid request: url is required"
      else if urlOk u then .proceed u
      else .badRequest "Invalid URL format"
    | _ => .badRequest "Invalid request: url is required"

/-- POST /image-proxy gating, Admin-SDK variant (src/index.js 225-330):
api key, truthy storagePath and authToken, initialized Admin SDK, then the
storage calls on storagePath. -/
def imageProxyHandler (apiKey env : Option String)
    (storagePath authToken : Option JVal) (adminReady : Bool) : Gate JVal :=
  if apiKeyMismatch apiKey env then .unauthorized
  else
    match storagePath, authToken with
    | some sp, some tok =>
      if truthy sp && truthy tok then
        if adminReady then .proceed sp
        else .serverError "Firebase Admin not initialized"
      else .badRequest "Missing storagePath or authToken"
    | _, _ => .badRequest "Missing storagePath or authToken"

/-- POST /upload-image gating (src/index.js 333-389): the handler reads no
api key at all; the four body fields must be truthy, then the Firebase
upload runs.  `proceed` carries the collaborator inputs. -/
def uploadImageHandler (_apiKey _env : Option String)
    (imageData fileName contentType userId recipeId : Option JVal) :
    Gate (JVal × JVal × JVal × JVal × Option JVal) :=
  match imageData, fileName, contentType, userId with
  | some a, some b, some c, some d =>
    if truthy a && truthy b && truthy c && truthy d then
      .proceed (a, b, c, d, recipeId)
    else
      .badRequest "Missing required fields: imageData, fileName, contentType, userId"
  | _, _, _, _ =>
    .badRequest "Missing required fields: imageData, fileName, contentType, userId"

/-- Character-list prefix test. -/
def leadsWith : List Char → List Char → Bool
  | [], _ => true
  | _ :: _, [] => false
  | a :: as2, b :: bs => a = b && leadsWith as2 bs

/-- Substring containment, modelling String.prototype.includes. -/
def charsHave : List Char → List Char → Bool
  | [], n => n.isEmpty
  | c :: r, n => leadsWith n (c :: r) || charsHave r n

/-- String.prototype.includes. -/
def strHas (s sub : String) : Bool := charsHave s.data sub.data

/-- POST /image-proxy gating, token-verifying variant (src/index.js
637-758): api key, truthy fields, initialized Admin SDK, then the bearer
token is verified (`verify` returns the subject uid or fails); a path that
mentions recipes/ but not the caller's own recipes/<uid>/ directory is
answered 403 before any storage call; otherwise the storage calls run on
storagePath. -/
def imageProxyAuthHandler (verify : String → Option String)
    (apiKey env : Option String) (storagePath authToken : Option JVal)
    (adminReady : Bool) : Gate String :=
  if apiKeyMismatch apiKey env then .unauthorized
  else
    match storagePath, authToken with
    | some sp, some tok =>
      if truthy sp && truthy tok then
        if adminReady then
          match tok with
          | .str t =>
            match verify t with
            | none => .invalidToken
            | some uid =>
              match sp with
              | .str p =>
                if strHas p "recipes/" && ! strHas p ("recipes/" ++ uid ++ "/")
                then .forbidden
                else .proceed p
              | _ => .serverError "storagePath.includes is not a function"
          | _ => .invalidToken
        else .serverError "Firebase Admin not initialized"
      else .badRequest "Missing storagePath or authToken"
    | _, _ => .badRequest "Missing storagePath or authToken"

/-! ### JSON.stringify -/

/-- Decimal digit character. -/
def digitChar (d : Nat) : Char := Char.ofNat (48 + d)

/-- Lowercase hexadecimal digit character. -/
def hexDigitChar (d : Nat) : Char :=
  if d < 10 then Char.ofNat (48 + d) else Char.ofNat (87 + d)

/-- Decimal digits of a natural number, most significant first (fuelled;
the wrapper supplies ample fuel). -/
def natDigitsAux : Nat → Nat → List Char
  | 0, _ => []
  | f + 1, n =>
    if n < 10 then [digitChar n] else natDigitsAux f (n / 10) ++ [digitChar (n % 10)]

/-- Decimal digits of a natural number, most significant first. -/
def natDigits (n : Nat) : List Char := natDigitsAux (n + 1) n

/-- Decimal rendering of the magnitude a / 10^k: plain digit string when
k = 0, otherwise the digit string with a decimal point k places from the
right (padded with a leading zero when needed). -/
def numCharsAbs (a : Nat) (k : Nat) : List Char :=
  if k = 0 then natDigits a
  else if (natDigits a).length ≤ k then
    '0' :: '.' :: (List.replicate (k - (natDigits a).length) '0' ++ natDigits a)
  else (natDigits a).take ((natDigits a).length - k) ++
    '.' :: (natDigits a).drop ((natDigits a).length - k)

/-- Decimal rendering of the number m / 10^k with its sign. -/
def numChars (m : Int) (k : Nat) : List Char :=
  if m < 0 then '-' :: numCharsAbs m.natAbs k else numCharsAbs m.natAbs k

/-- JSON.stringify escaping of one string character: quote and backslash
escaped, the five short control escapes, other control characters as
4-digit hex escapes, everything else verbatim. -/
def escChar (c : Char) : List Char :=
  if c = '"' then ['\\', '"']
  else if c = '\\' then ['\\', '\\']
  else if c = '\x08' then ['\\', 'b']
  else if c = '\t' then ['\\', 't']
  else if c = '\n' then ['\\', 'n']
  else if c = '\x0c' then ['\\', 'f']
  else if c = '\r' then ['\\', 'r']
  else if c.toNat < 32 then
    ['\\', 'u', '0', '0', hexDigitChar (c.toNat / 16), hexDigitChar (c.toNat % 16)]
  else [c]

/-- JSON.stringify escaping of a character sequence. -/
def escStr : List Char → List Char
  | [] => []
  | c :: r => escChar c ++ escStr r

/-- A JSON string literal: quote, escaped body, quote. -/
def quoteStr (s : String) : List Char := '"' :: (escStr s.data ++ ['"'])

mutual

/-- JSON.stringify of a value (no spacing, as the source calls it for
response bodies and for C8's composition).  Named array properties are not
serialized, exactly as JSON.stringify drops them on JS arrays. -/
def strVal : JVal → List Char
  | .null => 'n' :: 'u' :: 'l' :: ['l']
  | .bool true => 't' :: 'r' :: 'u' :: ['e']
  | .bool false => 'f' :: 'a' :: 'l' :: 's' :: ['e']
  | .num m k => numChars m k
  | .str s => quoteStr s
  | .arr es _ => '[' :: (strElems es ++ [']'])
  | .obj fs => '\x7b' :: (strFlds fs ++ ['\x7d'])

/-- Comma-separated renderings of array elements. -/
def strElems : List JVal → List Char
  | [] => []
  | [v] => strVal v
  | v :: w :: r => strVal v ++ ',' :: strElems (w :: r)

/-- Comma-separated renderings of object members. -/
def strFlds : List (String × JVal) → List Char
  | [] => []
  | [(k, v)] => quoteStr k ++ ':' :: strVal v
  | (k, v) :: f :: r => quoteStr k ++ ':' :: strVal v ++ ',' :: strFlds (f :: r)

end

/-- JSON.stringify. -/
def stringify (v : JVal) : String := String.mk (strVal v)

/-! ### Specification-side helpers used in the claim statements -/

/-- A field of a normalized record is present and carries a non-null value
(the populated-record shape the specification promises). -/
def presentNonNull (v : JVal) (k : String) : Prop :=
  (getProp v k).isSome = true ∧ getProp v k ≠ some .null

/-- What one backfill statement yields for a field, as the amended claim
words it: the default exactly when the field is absent or falsy, the
original value when it is truthy. -/
def backfillSpec (orig : Option JVal) (w : JVal) : Option JVal :=
  match orig with
  | none => some w
  | some u => if truthy u then some u else some w

/-! ### Printability of values (used for the stringify round trip) -/

/-- The characters a value rendering may be followed by inside a larger
rendering: end of input, a comma, or a closing bracket or brace. -/
def sepStart : List Char → Bool
  | [] => true
  | c :: _ => c = ',' || c = ']' || c = '\x7d'

def keysNodup : List (String × JVal) → Bool
  | [] => true
  | (k, _) :: r => !(r.any (fun kv => kv.1 == k)) && keysNodup r

mutual

/-- A value in the image of the parser, rendered by stringify in a form the
parser reads back verbatim: numbers carry no trailing fractional zeros,
arrays carry no named properties (stringify drops them), and object keys
are pairwise distinct (parsing collapses duplicates). -/
def printOK : JVal → Bool
  | .null => true
  | .bool _ => true
  | .num m k => k == 0 || !(m % 10 == 0)
  | .str _ => true
  | .arr es ps => ps.isEmpty && printOKElems es
  | .obj fs => keysNodup fs && printOKFlds fs

/-- Every array element is printable. -/
def printOKElems : List JVal → Bool
  | [] => true
  | v :: r => printOK v && printOKElems r

/-- Every object member value is printable. -/
def printOKFlds : List (String × JVal) → Bool
  | [] => true
  | (_, v) :: r => printOK v && printOKFlds r

end

mutual

/-- A parsed value carrying no JSON number anywhere.  The embedding reads
and prints numbers as exact decimals, while the engine's JSON.parse rounds
them to IEEE-754 doubles and JSON.stringify prints non-finite doubles as
null and finite ones in shortest round-trip form; on number-free values the
two semantics coincide, so number-free is where number claims about the
program transfer to the embedding verbatim. -/
def numFree : JVal → Bool
  | .null => true
  | .bool _ => true
  | .num _ _ => false
  | .str _ => true
  | .arr es ps => numFreeElems es && numFreeFlds ps
  | .obj fs => numFreeFlds fs

/-- Every array element is number-free. -/
def numFreeElems : List JVal → Bool
  | [] => true
  | v :: r => numFree v && numFreeElems r

/-- Every member value is number-free. -/
def numFreeFlds : List (String × JVal) → Bool
  | [] => true
  | (_, v) :: r => numFree v && numFreeFlds r

end

/-! ### Field-list and backfill lemmas -/

theorem lookupField_setField_self :
    ∀ (fs : List (String × JVal)) (k : String) (w : JVal),
      lookupField (setField fs k w) k = some w
  | [], k, w => by simp [setField, lookupField]
  | (k0, v0) :: r, k, w => by
    by_cases h : k0 = k
    · simp [setField, lookupField, h]
    · simp [setField, lookupField, h, lookupField_setField_self r k w]

theorem lookupField_setField_ne :
    ∀ (fs : List (String × JVal)) (k : String) (w : JVal) (k2 : String),
      k2 ≠ k → lookupField (setField fs k w) k2 = lookupField fs k2
  | [], k, w, k2, h => by
    have hk : ¬ (k = k2) := fun hh => h hh.symm
    simp [setField, lookupField, hk]
  | (k0, v0) :: r, k, w, k2, h => by
    by_cases h0 : k0 = k
    · subst h0
      have hk : ¬ (k0 = k2) := fun hh => h hh.symm
      simp [setField, lookupField, hk]
    · by_cases h2 : k0 = k2
      · simp [setField, lookupField, h0, h2, h]
      · simp [setField, lookupField, h0, h2, lookupField_setField_ne r k w k2 h]

theorem getProp_putProp_self (v : JVal) (k : String) (w : JVal)
    (hv : isObjOrArr v = true) : getProp (putProp v k w) k = some w := by
  cases v <;> simp_all [isObjOrArr, putProp, getProp, lookupField_setField_self]

theorem getProp_putProp_ne (v : JVal) (k w2 : String) (w : JVal) (h : w2 ≠ k) :
    getProp (putProp v k w) w2 = getProp v w2 := by
  cases v <;> simp [putProp, getProp, lookupField_setField_ne _ _ _ _ h]

theorem isObjOrArr_putProp (v : JVal) (k : String) (w : JVal) :
    isObjOrArr (putProp v k w) = isObjOrArr v := by
  cases v <;> rfl

theorem getProp_backfillField_ne (v : JVal) (k k2 : String) (w : JVal)
    (h : k2 ≠ k) : getProp (backfillField v k w) k2 = getProp v k2 := by
  unfold backfillField
  rcases hg : getProp v k with _ | u
  · exact getProp_putProp_ne v k k2 w h
  · by_cases ht : truthy u = true <;>
      simp [ht, getProp_putProp_ne v k k2 w h]

theorem isObjOrArr_backfillField (v : JVal) (k : String) (w : JVal) :
    isObjOrArr (backfillField v k w) = isObjOrArr v := by
  unfold backfillField
  rcases hg : getProp v k with _ | u
  · exact isObjOrArr_putProp v k w
  · by_cases ht : truthy u = true <;> simp [ht, isObjOrArr_putProp]

theorem getProp_backfillField_self (v : JVal) (k : String) (w : JVal)
    (hv : isObjOrArr v = true) :
    getProp (backfillField v k w) k = backfillSpec (getProp v k) w := by
  unfold backfillField backfillSpec
  rcases hg : getProp v k with _ | u
  · exact getProp_putProp_self v k w hv
  · by_cases ht : truthy u = true <;>
      simp [ht, hg, getProp_putProp_self v k w hv]

theorem getProp_backfillAll_title (v : JVal) (s : String)
    (hv : isObjOrArr v = true) :
    getProp (backfillAll v s) "title" =
      backfillSpec (getProp v "title") (.str "Imported Recipe") := by
  unfold backfillAll
  rw [getProp_backfillField_ne _ _ _ _ (by decide),
      getProp_backfillField_ne _ _ _ _ (by decide),
      getProp_backfillField_ne _ _ _ _ (by decide),
      getProp_backfillField_self v _ _ hv]

theorem getProp_backfillAll_ibps (v : JVal) (s : String)
    (hv : isObjOrArr v = true) :
    getProp (backfillAll v s) "ingredientsByProcessingStep" =
      backfillSpec (getProp v "ingredientsByProcessingStep") emptyArr := by
  unfold backfillAll
  rw [getProp_backfillField_ne _ _ _ _ (by decide),
      getProp_backfillField_ne _ _ _ _ (by decide),
      getProp_backfillField_self _ _ _
        (by rw [isObjOrArr_backfillField]; exact hv),
      getProp_backfillField_ne _ _ _ _ (by decide)]

theorem getProp_backfillAll_steps (v : JVal) (s : String)
    (hv : isObjOrArr v = true) :
    getProp (backfillAll v s) "steps" =
      backfillSpec (getProp v "steps") (.str s) := by
  unfold backfillAll
  rw [getProp_backfillField_ne _ _ _ _ (by decide),
      getProp_backfillField_self _ _ _
        (by rw [isObjOrArr_backfillField, isObjOrArr_backfillField]; exact hv),
      getProp_backfillField_ne _ _ _ _ (by decide),
      getProp_backfillField_ne _ _ _ _ (by decide)]

theorem getProp_backfillAll_tags (v : JVal) (s : String)
    (hv : isObjOrArr v = true) :
    getProp (backfillAll v s) "tags" =
      backfillSpec (getProp v "tags") emptyArr := by
  unfold backfillAll
  rw [getProp_backfillField_self _ _ _
        (by rw [isObjOrArr_backfillField, isObjOrArr_backfillField,
                isObjOrArr_backfillField]; exact hv),
      getProp_backfillField_ne _ _ _ _ (by decide),
      getProp_backfillField_ne _ _ _ _ (by decide),
      getProp_backfillField_ne _ _ _ _ (by decide)]

theorem getProp_backfillAll_other (v : JVal) (s : String) (k : String)
    (h1 : k ≠ "title") (h2 : k ≠ "ingredientsByProcessingStep")
    (h3 : k ≠ "steps") (h4 : k ≠ "tags") :
    getProp (backfillAll v s) k = getProp v k := by
  unfold backfillAll
  rw [getProp_backfillField_ne _ _ _ _ h4, getProp_backfillField_ne _ _ _ _ h3,
      getProp_backfillField_ne _ _ _ _ h2, getProp_backfillField_ne _ _ _ _ h1]

theorem backfillSpec_isSome (o : Option JVal) (w : JVal) :
    (backfillSpec o w).isSome = true := by
  rcases o with _ | u
  · rfl
  · unfold backfillSpec
    by_cases ht : truthy u = true <;> simp [ht]

theorem backfillSpec_ne_null (o : Option JVal) (w : JVal) (hw : w ≠ .null) :
    backfillSpec o w ≠ some .null := by
  rcases o with _ | u
  · simpa [backfillSpec] using hw
  · unfold backfillSpec
    by_cases ht : truthy u = true
    · simp only [ht, if_pos]
      intro h
      rw [Option.some_inj] at h
      subst h
      simp [truthy] at ht
    · simpa [ht] using hw

/-! ### The regex match agrees with the first-brace/last-brace description -/

theorem firstBraceMatch_of_no_close :
    ∀ l : List Char, lastIdxOf '\x7d' l = none → firstBraceMatch l = none
  | [], _ => rfl
  | c :: r, h => by
    rw [lastIdxOf] at h
    rcases hr : lastIdxOf '\x7d' r with _ | j
    · rw [hr] at h
      rw [firstBraceMatch, tryMatchAt]
      by_cases hc : c = '\x7b' <;>
        simp [hc, hr, firstBraceMatch_of_no_close r hr]
    · rw [hr] at h
      exact absurd h (by simp)

theorem firstBraceMatch_of_no_open :
    ∀ l : List Char, idxOfCh '\x7b' l = none → firstBraceMatch l = none
  | [], _ => rfl
  | c :: r, h => by
    rw [idxOfCh] at h
    by_cases hc : c = '\x7b'
    · simp [hc] at h
    · rw [if_neg hc] at h
      rcases hr : idxOfCh '\x7b' r with _ | i
      · rw [firstBraceMatch, tryMatchAt, if_neg hc]
        exact firstBraceMatch_of_no_open r hr
      · rw [hr] at h
        exact absurd h (by simp)

theorem firstBraceMatch_of_span :
    ∀ (l : List Char) (i j : Nat), idxOfCh '\x7b' l = some i →
      lastIdxOf '\x7d' l = some j → i < j →
      firstBraceMatch l = some ((l.drop i).take (j + 1 - i))
  | [], i, j => by intro hi; simp [idxOfCh] at hi
  | c :: r, i, j => by
    intro hi hj hij
    rw [idxOfCh] at hi
    rw [lastIdxOf] at hj
    by_cases hc : c = '\x7b'
    · rw [if_pos hc] at hi
      have hi0 : i = 0 := by simpa using hi.symm
      subst hi0
      rcases hr : lastIdxOf '\x7d' r with _ | j2
      · rw [hr] at hj
        have hc2 : ¬ (c = '\x7d') := by
          subst hc; decide
        rw [if_neg hc2] at hj
        exact absurd hj (by simp)
      · rw [hr] at hj
        have hj2 : j = j2 + 1 := by simpa using hj.symm
        subst hj2
        rw [firstBraceMatch, tryMatchAt, if_pos hc, hr]
        subst hc
        rfl
    · rw [if_neg hc] at hi
      rcases hri : idxOfCh '\x7b' r with _ | i2
      · rw [hri] at hi
        exact absurd hi (by simp)
      · rw [hri] at hi
        have hi2 : i = i2 + 1 := by simpa using hi.symm
        subst hi2
        rcases hrj : lastIdxOf '\x7d' r with _ | j2
        · rw [hrj] at hj
          by_cases hc2 : c = '\x7d'
          · rw [if_pos hc2] at hj
            have : j = 0 := by simpa using hj.symm
            omega
          · rw [if_neg hc2] at hj
            exact absurd hj (by simp)
        · rw [hrj] at hj
          have hj2 : j = j2 + 1 := by simpa using hj.symm
          subst hj2
          have hij2 : i2 < j2 := by omega
          rw [firstBraceMatch, tryMatchAt, if_neg hc]
          rw [firstBraceMatch_of_span r i2 j2 hri hrj hij2]
          have harith : j2 + 1 - i2 = j2 + 1 + 1 - (i2 + 1) := by omega
          rw [List.drop_succ_cons, ← harith]

theorem firstBraceMatch_of_bad_span :
    ∀ (l : List Char) (i j : Nat), idxOfCh '\x7b' l = some i →
      lastIdxOf '\x7d' l = some j → j ≤ i → firstBraceMatch l = none
  | [], i, j => by intro hi; simp [idxOfCh] at hi
  | c :: r, i, j => by
    intro hi hj hij
    rw [idxOfCh] at hi
    rw [lastIdxOf] at hj
    by_cases hc : c = '\x7b'
    · rw [if_pos hc] at hi
      have hi0 : i = 0 := by simpa using hi.symm
      subst hi0
      have hj0 : j = 0 := by omega
      subst hj0
      rcases hr : lastIdxOf '\x7d' r with _ | j2
      · rw [hr] at hj
        have hc2 : ¬ (c = '\x7d') := by subst hc; decide
        rw [if_neg hc2] at hj
        exact absurd hj (by simp)
      · rw [hr] at hj
        simp at hj
    · rw [if_neg hc] at hi
      rcases hri : idxOfCh '\x7b' r with _ | i2
      · rw [hri] at hi
        exact absurd hi (by simp)
      · rw [hri] at hi
        have hi2 : i = i2 + 1 := by simpa using hi.symm
        subst hi2
        rw [firstBraceMatch, tryMatchAt, if_neg hc]
        rcases hrj : lastIdxOf '\x7d' r with _ | j2
        · exact firstBraceMatch_of_no_close r hrj
        · rw [hrj] at hj
          have hj2 : j = j2 + 1 := by simpa using hj.symm
          subst hj2
          exact firstBraceMatch_of_bad_span r i2 j2 hri hrj (by omega)

theorem extractCandidate_eq_specCandidate (s : String) :
    extractCandidate s = specCandidate s := by
  unfold extractCandidate specCandidate
  rcases hi : idxOfCh '\x7b' s.data with _ | i
  · rw [firstBraceMatch_of_no_open s.data hi]
  · rcases hj : lastIdxOf '\x7d' s.data with _ | j
    · rw [firstBraceMatch_of_no_close s.data hj]
    · by_cases hij : i < j
      · rw [firstBraceMatch_of_span s.data i j hi hj hij]
        simp [hij]
      · rw [firstBraceMatch_of_bad_span s.data i j hi hj (by omega)]
        simp [hij]

/-! ### Shape of normalizeRecipe by parse outcome -/

theorem normalizeRecipe_of_parse_none (s : String)
    (hp : jsonParse (extractCandidate s) = none) :
    normalizeRecipe s = fallbackRecord s := by
  unfold normalizeRecipe
  rw [hp]

theorem normalizeRecipe_of_parse_obj (s : String) (fields : List (String × JVal))
    (hp : jsonParse (extractCandidate s) = some (.obj fields)) :
    normalizeRecipe s = backfillAll (.obj fields) s := by
  unfold normalizeRecipe
  rw [hp]
  rfl

theorem normalizeRecipe_of_parse_arr (s : String) (es : List JVal)
    (ps : List (String × JVal))
    (hp : jsonParse (extractCandidate s) = some (.arr es ps)) :
    normalizeRecipe s = backfillAll (.arr es ps) s := by
  unfold normalizeRecipe
  rw [hp]
  rfl

theorem normalizeRecipe_of_parse_prim (s : String) (v : JVal)
    (hp : jsonParse (extractCandidate s) = some v)
    (hoa : isObjOrArr v = false) :
    normalizeRecipe s = fallbackRecord s := by
  unfold normalizeRecipe
  rw [hp]
  simp [hoa]

theorem getProp_fallback_title (s : String) :
    getProp (fallbackRecord s) "title" = some (.str "Imported Recipe") := rfl

theorem getProp_fallback_steps (s : String) :
    getProp (fallbackRecord s) "steps" = some (.str s) := rfl

theorem getProp_fallback_ibps (s : String) :
    getProp (fallbackRecord s) "ingredientsByProcessingStep" = some emptyArr := rfl

theorem getProp_fallback_tags (s : String) :
    getProp (fallbackRecord s) "tags" = some emptyArr := rfl

theorem fallbackRecord_populated (s : String) :
    presentNonNull (fallbackRecord s) "title" ∧
    presentNonNull (fallbackRecord s) "ingredientsByProcessingStep" ∧
    presentNonNull (fallbackRecord s) "steps" ∧
    presentNonNull (fallbackRecord s) "tags" := by
  refine ⟨⟨rfl, ?_⟩, ⟨rfl, ?_⟩, ⟨rfl, ?_⟩, ⟨rfl, ?_⟩⟩ <;>
    simp [getProp_fallback_title, getProp_fallback_steps, getProp_fallback_ibps,
          getProp_fallback_tags, emptyArr]

/-- C1: normalize is total: for every input string rawText (including the
empty string, pure whitespace, and strings with unbalanced braces), the
normalization step terminates (normalizeRecipe is a total Lean function),
raises no exception, and returns a record in which all four fields (title,
ingredientsByProcessingStep, steps, tags) are present and non-null. -/
theorem normalize_total_fully_populated (s : String) :
    presentNonNull (normalizeRecipe s) "title" ∧
    presentNonNull (normalizeRecipe s) "ingredientsByProcessingStep" ∧
    presentNonNull (normalizeRecipe s) "steps" ∧
    presentNonNull (normalizeRecipe s) "tags" := by
  rcases hp : jsonParse (extractCandidate s) with _ | v
  · rw [normalizeRecipe_of_parse_none s hp]
    exact fallbackRecord_populated s
  · by_cases hoa : isObjOrArr v = true
    · have hn : normalizeRecipe s = backfillAll v s := by
        unfold normalizeRecipe
        rw [hp]
        simp [hoa]
      rw [hn]
      unfold presentNonNull
      rw [getProp_backfillAll_title v s hoa, getProp_backfillAll_ibps v s hoa,
          getProp_backfillAll_steps v s hoa, getProp_backfillAll_tags v s hoa]
      exact ⟨⟨backfillSpec_isSome _ _, backfillSpec_ne_null _ _ (by simp)⟩,
             ⟨backfillSpec_isSome _ _, backfillSpec_ne_null _ _ (by simp [emptyArr])⟩,
             ⟨backfillSpec_isSome _ _, backfillSpec_ne_null _ _ (by simp)⟩,
             ⟨backfillSpec_isSome _ _, backfillSpec_ne_null _ _ (by simp [emptyArr])⟩⟩
    · rw [normalizeRecipe_of_parse_prim s v hp (by simpa using hoa)]
      exact fallbackRecord_populated s

/-- C2: the JSON candidate is the substring from the first opening brace to
the last closing brace of the text (one greedy match, not a brace-balancing
scan); with no such substring the whole input is the parse candidate; and on
the embedded-object example the extracted object yields title Soup, steps
Boil it., empty ingredient groups and tags. -/
theorem candidate_extraction_greedy :
    (∀ s : String, extractCandidate s = specCandidate s) ∧
    normalizeRecipe "Here is your recipe:\n\x7b\"title\":\"Soup\",\"steps\":\"Boil it.\"\x7d\nEnjoy!" =
      .obj [("title", .str "Soup"), ("steps", .str "Boil it."),
            ("ingredientsByProcessingStep", emptyArr), ("tags", emptyArr)] :=
  ⟨extractCandidate_eq_specCandidate, rfl⟩

/-- C3 (amended): when the extracted candidate parses as a JSON object, each
of the four fields is replaced by its default exactly when its value is
absent or JS-falsy (null, false, 0, the empty string), and each field whose
value is JS-truthy is returned unchanged; defaults are title Imported
Recipe, ingredientsByProcessingStep and tags the empty array, steps the raw
un-normalized model text.  The concrete example behaves as the claim says. -/
theorem backfill_defaults_amended :
    (∀ (s : String) (fields : List (String × JVal)),
      jsonParse (extractCandidate s) = some (.obj fields) →
        getProp (normalizeRecipe s) "title" =
          backfillSpec (lookupField fields "title") (.str "Imported Recipe") ∧
        getProp (normalizeRecipe s) "ingredientsByProcessingStep" =
          backfillSpec (lookupField fields "ingredientsByProcessingStep") emptyArr ∧
        getProp (normalizeRecipe s) "steps" =
          backfillSpec (lookupField fields "steps") (.str s) ∧
        getProp (normalizeRecipe s) "tags" =
          backfillSpec (lookupField fields "tags") emptyArr) ∧
    normalizeRecipe "\x7b\"title\":\"\",\"steps\":\"Mix.\"\x7d" =
      .obj [("title", .str "Imported Recipe"), ("steps", .str "Mix."),
            ("ingredientsByProcessingStep", emptyArr), ("tags", emptyArr)] := by
  constructor
  · intro s fields hp
    rw [normalizeRecipe_of_parse_obj s fields hp]
    have hoa : isObjOrArr (.obj fields) = true := rfl
    rw [getProp_backfillAll_title _ s hoa, getProp_backfillAll_ibps _ s hoa,
        getProp_backfillAll_steps _ s hoa, getProp_backfillAll_tags _ s hoa]
    exact ⟨rfl, rfl, rfl, rfl⟩
  · rfl

/-- C3 witness: a concrete object input instantiating the amended claim. -/
theorem backfill_defaults_amended_witness :
    jsonParse (extractCandidate "\x7b\"a\":1\x7d") = some (.obj [("a", .num 1 0)]) ∧
    getProp (normalizeRecipe "\x7b\"a\":1\x7d") "title" =
      backfillSpec (lookupField [("a", .num 1 0)] "title") (.str "Imported Recipe") :=
  ⟨rfl, (backfill_defaults_amended.1 "\x7b\"a\":1\x7d" [("a", .num 1 0)] rfl).1⟩

/-- C3 counterexample: tags present with the non-empty value 0 is not
returned unchanged (as the claim as stated would require): the code replaces
every falsy value, so tags becomes the empty array. -/
theorem backfill_zero_tags_cex :
    jsonParse (extractCandidate "\x7b\"title\":\"T\",\"steps\":\"S\",\"tags\":0\x7d") =
      some (.obj [("title", .str "T"), ("steps", .str "S"), ("tags", .num 0 0)]) ∧
    getProp (normalizeRecipe "\x7b\"title\":\"T\",\"steps\":\"S\",\"tags\":0\x7d") "tags" =
      some emptyArr :=
  ⟨rfl, rfl⟩

/-- C4: whenever JSON extraction fails (no candidate substring, or the
candidate does not deserialize), normalize returns exactly the fallback
record with title Imported Recipe, steps the entire original input
unmodified, and empty ingredient groups and tags; the plain-prose example
yields that fallback. -/
theorem fallback_on_extraction_failure :
    (∀ s : String, jsonParse (extractCandidate s) = none →
      normalizeRecipe s =
        .obj [("title", .str "Imported Recipe"), ("steps", .str s),
              ("ingredientsByProcessingStep", emptyArr), ("tags", emptyArr)]) ∧
    normalizeRecipe "This is just plain prose with no braces." =
      .obj [("title", .str "Imported Recipe"),
            ("steps", .str "This is just plain prose with no braces."),
            ("ingredientsByProcessingStep", emptyArr), ("tags", emptyArr)] := by
  constructor
  · intro s hp
    rw [normalizeRecipe_of_parse_none s hp]
    rfl
  · rfl

/-- C4 witness: a concrete input on which extraction fails. -/
theorem fallback_on_extraction_failure_witness :
    jsonParse (extractCandidate "no json here") = none ∧
    normalizeRecipe "no json here" =
      .obj [("title", .str "Imported Recipe"), ("steps", .str "no json here"),
            ("ingredientsByProcessingStep", emptyArr), ("tags", emptyArr)] :=
  ⟨rfl, fallback_on_extraction_failure.1 "no json here" rfl⟩

/-- C5 (amended): the steps field of every normalized record is present, and
for every non-empty input it holds a JS-truthy value (in particular a
non-empty string whenever it is a string); for the empty input the fallback
carries steps equal to the empty input itself. -/
theorem steps_present_truthy_amended (s : String) :
    (getProp (normalizeRecipe s) "steps").isSome = true ∧
    (s ≠ "" → ∃ w, getProp (normalizeRecipe s) "steps" = some w ∧ truthy w = true) := by
  rcases hp : jsonParse (extractCandidate s) with _ | v
  · rw [normalizeRecipe_of_parse_none s hp, getProp_fallback_steps]
    exact ⟨rfl, fun hs => ⟨.str s, rfl, by simp [truthy, hs]⟩⟩
  · by_cases hoa : isObjOrArr v = true
    · have hn : normalizeRecipe s = backfillAll v s := by
        unfold normalizeRecipe
        rw [hp]
        simp [hoa]
      rw [hn, getProp_backfillAll_steps v s hoa]
      refine ⟨backfillSpec_isSome _ _, fun hs => ?_⟩
      rcases hg : getProp v "steps" with _ | u
      · exact ⟨.str s, by simp [backfillSpec], by simp [truthy, hs]⟩
      · by_cases ht : truthy u = true
        · exact ⟨u, by simp [backfillSpec, ht], ht⟩
        · exact ⟨.str s, by simp [backfillSpec, ht], by simp [truthy, hs]⟩
    · rw [normalizeRecipe_of_parse_prim s v hp (by simpa using hoa),
          getProp_fallback_steps]
      exact ⟨rfl, fun hs => ⟨.str s, rfl, by simp [truthy, hs]⟩⟩

/-- C5 witness: a concrete non-empty input with truthy steps. -/
theorem steps_present_truthy_amended_witness :
    ("x" ≠ "") ∧ (getProp (normalizeRecipe "x") "steps").isSome = true ∧
    (∃ w, getProp (normalizeRecipe "x") "steps" = some w ∧ truthy w = true) :=
  ⟨by decide, (steps_present_truthy_amended "x").1,
   (steps_present_truthy_amended "x").2 (by decide)⟩

/-- C5 counterexample: on the empty input the fallback record holds steps
equal to the empty string, so steps is not a non-empty string for every
input as the claim states. -/
theorem steps_empty_on_empty_input_cex :
    getProp (normalizeRecipe "") "steps" = some (.str "") := rfl

/-- C6 (amended): POST /parse-recipe, POST /parse-url and POST /image-proxy
check the x-api-key header against the configured shared secret first and
answer 401 on mismatch before any other processing (no body validation, no
collaborator call); POST /upload-image performs no api-key check at all, its
outcome is independent of the header. -/
theorem api_key_gate_amended (apiKey env : Option String)
    (hm : apiKeyMismatch apiKey env = true) :
    (∀ text, parseRecipeHandler apiKey env text = .unauthorized) ∧
    (∀ urlOk url, parseUrlHandler urlOk apiKey env url = .unauthorized) ∧
    (∀ sp tok ar, imageProxyHandler apiKey env sp tok ar = .unauthorized) ∧
    (∀ (k2 e2 : Option String) a b c d rid,
      uploadImageHandler apiKey env a b c d rid = uploadImageHandler k2 e2 a b c d rid) := by
  refine ⟨fun text => ?_, fun urlOk url => ?_, fun sp tok ar => ?_,
          fun k2 e2 a b c d rid => rfl⟩
  · simp [parseRecipeHandler, hm]
  · simp [parseUrlHandler, hm]
  · simp [imageProxyHandler, hm]

/-- C6 witness: a request without the header is rejected 401 by
/parse-recipe whatever its body. -/
theorem api_key_gate_amended_witness :
    apiKeyMismatch none none = true ∧
    parseRecipeHandler none none (some (.str "hello")) = .unauthorized :=
  ⟨rfl, (api_key_gate_amended none none rfl).1 (some (.str "hello"))⟩

/-- C6 counterexample: POST /upload-image never reads the x-api-key header;
a request with no key (which every other mutating endpoint answers 401)
passes validation and reaches the storage upload. -/
theorem upload_image_no_auth_cex :
    apiKeyMismatch none (some "s3cret") = true ∧
    uploadImageHandler none (some "s3cret") (some (.str "aGVsbG8="))
      (some (.str "photo.jpg")) (some (.str "image/jpeg")) (some (.str "user1"))
      (some (.str "r1")) =
      .proceed (.str "aGVsbG8=", .str "photo.jpg", .str "image/jpeg", .str "user1",
                some (.str "r1")) :=
  ⟨rfl, rfl⟩

/-- C9: in the token-verifying POST /image-proxy variant, a request passing
the api-key and field checks whose token verifies to uid, with a storagePath
mentioning recipes/ but not recipes/<uid>/, is answered 403 and never
reaches a storage operation (`Gate.forbidden` carries no storage access; the
storage calls happen only under `Gate.proceed`). -/
theorem image_proxy_path_gate
    (verify : String → Option String) (apiKey env : Option String)
    (p t uid : String) (adminReady : Bool)
    (hk : apiKeyMismatch apiKey env = false) (hp : p ≠ "") (ht : t ≠ "")
    (ha : adminReady = true) (hv : verify t = some uid)
    (h1 : strHas p "recipes/" = true)
    (h2 : strHas p ("recipes/" ++ uid ++ "/") = false) :
    imageProxyAuthHandler verify apiKey env (some (.str p)) (some (.str t))
      adminReady = .forbidden := by
  subst ha
  simp [imageProxyAuthHandler, hk, truthy, hp, ht, hv, h1, h2]

/-- C9 witness: user bob asking for a file under recipes/alice/ is answered
403. -/
theorem image_proxy_path_gate_witness :
    imageProxyAuthHandler (fun t => if t = "tok" then some "bob" else none)
      (some "chef-choice-mobile-app-2025") none
      (some (.str "recipes/alice/img.jpg")) (some (.str "tok")) true =
      .forbidden :=
  image_proxy_path_gate _ _ _ _ _ _ _ rfl (by decide) (by decide) rfl rfl rfl rfl

/-- C10: when the candidate parses as an object, every property other than
the four canonical ones is passed through to the returned record unchanged
rather than stripped. -/
theorem unknown_keys_passthrough (s : String) (fields : List (String × JVal))
    (k : String) (hp : jsonParse (extractCandidate s) = some (.obj fields))
    (h1 : k ≠ "title") (h2 : k ≠ "ingredientsByProcessingStep")
    (h3 : k ≠ "steps") (h4 : k ≠ "tags") :
    getProp (normalizeRecipe s) k = lookupField fields k := by
  rw [normalizeRecipe_of_parse_obj s fields hp,
      getProp_backfillAll_other _ _ _ h1 h2 h3 h4]
  rfl

/-- C10 witness: the unknown key servings of a concrete input is passed
through. -/
theorem unknown_keys_passthrough_witness :
    jsonParse (extractCandidate "\x7b\"title\":\"T\",\"steps\":\"S\",\"servings\":4\x7d") =
      some (.obj [("title", .str "T"), ("steps", .str "S"), ("servings", .num 4 0)]) ∧
    getProp (normalizeRecipe "\x7b\"title\":\"T\",\"steps\":\"S\",\"servings\":4\x7d") "servings" =
      lookupField [("title", .str "T"), ("steps", .str "S"), ("servings", .num 4 0)]
        "servings" :=
  ⟨rfl, unknown_keys_passthrough _ _ _ rfl (by decide) (by decide) (by decide) (by decide)⟩

set_option maxRecDepth 8000 in
/-- C7: JSON round-trip: for rawText the JSON.stringify rendering of the
canonical example record, normalize(rawText) returns a record deep-equal to
the stringified object. -/
theorem json_roundtrip_canonical :
    stringify
      (.obj [("title", .str "T"),
             ("ingredientsByProcessingStep",
               .arr [.obj [("name", .str "G"),
                           ("items",
                             .arr [.obj [("quantity", .str "1"),
                                         ("name", .str "salt")]] [])]] []),
             ("steps", .str "S"),
             ("tags", .arr [.str "x"] [])]) =
      "\x7b\"title\":\"T\",\"ingredientsByProcessingStep\":[\x7b\"name\":\"G\",\"items\":[\x7b\"quantity\":\"1\",\"name\":\"salt\"\x7d]\x7d],\"steps\":\"S\",\"tags\":[\"x\"]\x7d" ∧
    normalizeRecipe
      "\x7b\"title\":\"T\",\"ingredientsByProcessingStep\":[\x7b\"name\":\"G\",\"items\":[\x7b\"quantity\":\"1\",\"name\":\"salt\"\x7d]\x7d],\"steps\":\"S\",\"tags\":[\"x\"]\x7d" =
      .obj [("title", .str "T"),
            ("ingredientsByProcessingStep",
              .arr [.obj [("name", .str "G"),
                          ("items",
                            .arr [.obj [("quantity", .str "1"),
                                        ("name", .str "salt")]] [])]] []),
            ("steps", .str "S"),
            ("tags", .arr [.str "x"] [])] := by
  constructor
  · simp [stringify, strVal, strFlds, strElems, quoteStr, escStr, escChar]
  · rfl

/-! ### Toward C8: parse/stringify round trip.  Utilities. -/

theorem skipWs_nws (c : Char) (r : List Char)
    (h : ¬ (c = ' ' ∨ c = '\t' ∨ c = '\n' ∨ c = '\r')) :
    skipWs (c :: r) = c :: r := by
  rw [skipWs, if_neg h]

theorem skipWs_length : ∀ l : List Char, (skipWs l).length ≤ l.length
  | [] => le_refl _
  | c :: r => by
    rw [skipWs]
    by_cases h : c = ' ' ∨ c = '\t' ∨ c = '\n' ∨ c = '\r'
    · rw [if_pos h]
      exact le_trans (skipWs_length r) (by simp)
    · rw [if_neg h]

theorem lastIdxOf_append_last (c : Char) :
    ∀ xs : List Char, lastIdxOf c (xs ++ [c]) = some xs.length
  | [] => by simp [lastIdxOf]
  | x :: xs => by
    rw [List.cons_append, lastIdxOf, lastIdxOf_append_last c xs]
    simp

theorem extractCandidate_wrapped (cs : List Char) :
    extractCandidate (String.mk ('\x7b' :: (cs ++ ['\x7d']))) =
      String.mk ('\x7b' :: (cs ++ ['\x7d'])) := by
  unfold extractCandidate
  rw [show (String.mk ('\x7b' :: (cs ++ ['\x7d']))).data = '\x7b' :: (cs ++ ['\x7d']) from rfl]
  rw [firstBraceMatch, tryMatchAt, if_pos rfl, lastIdxOf_append_last]
  have ht : List.take (cs.length + 1) (cs ++ ['\x7d']) = cs ++ ['\x7d'] := by
    rw [show cs.length + 1 = (cs ++ ['\x7d']).length by simp, List.take_length]
  simp [ht]

/-! ### Toward C8: string escape round trip -/

theorem hexVal_hexDigitChar (x : Nat) (h : x < 16) :
    hexVal (hexDigitChar x) = some x := by
  interval_cases x <;> rfl

theorem pString_other (c : Char) (r : List Char)
    (h1 : ¬ c = '"') (h2 : ¬ c = '\\') :
    pString (c :: r) =
      (if c.toNat < 32 then none
       else (pString r).map (fun p => (c :: p.1, p.2))) := by
  rw [pString, if_neg h1, if_neg h2]

theorem pString_quote_escape (rest : List Char) :
    pString ('\\' :: '"' :: rest) = (pString rest).map (fun p => ('"' :: p.1, p.2)) := rfl

theorem pString_bslash_escape (rest : List Char) :
    pString ('\\' :: '\\' :: rest) = (pString rest).map (fun p => ('\\' :: p.1, p.2)) := rfl

theorem pString_b_escape (rest : List Char) :
    pString ('\\' :: 'b' :: rest) = (pString rest).map (fun p => ('\x08' :: p.1, p.2)) := rfl

theorem pString_t_escape (rest : List Char) :
    pString ('\\' :: 't' :: rest) = (pString rest).map (fun p => ('\t' :: p.1, p.2)) := rfl

theorem pString_n_escape (rest : List Char) :
    pString ('\\' :: 'n' :: rest) = (pString rest).map (fun p => ('\n' :: p.1, p.2)) := rfl

theorem pString_f_escape (rest : List Char) :
    pString ('\\' :: 'f' :: rest) = (pString rest).map (fun p => ('\x0c' :: p.1, p.2)) := rfl

theorem pString_r_escape (rest : List Char) :
    pString ('\\' :: 'r' :: rest) = (pString rest).map (fun p => ('\r' :: p.1, p.2)) := rfl

theorem pString_u_escape (x : Nat) (hx : x < 32) (rest : List Char) :
    pString ('\\' :: 'u' :: '0' :: '0' :: hexDigitChar (x / 16) ::
      hexDigitChar (x % 16) :: rest) =
      (pString rest).map (fun p => (Char.ofNat x :: p.1, p.2)) := by
  interval_cases x <;> rfl

theorem pString_escStr : ∀ (cs tail : List Char),
    pString (escStr cs ++ ('"' :: tail)) = some (cs, tail)
  | [], tail => by
    show pString ('"' :: tail) = some ([], tail)
    rfl
  | c :: cs, tail => by
    rw [escStr, List.append_assoc]
    by_cases h1 : c = '"'
    · subst h1
      show pString ('\\' :: '"' :: (escStr cs ++ '"' :: tail)) = _
      rw [pString_quote_escape, pString_escStr cs tail]
      rfl
    by_cases h2 : c = '\\'
    · subst h2
      show pString ('\\' :: '\\' :: (escStr cs ++ '"' :: tail)) = _
      rw [pString_bslash_escape, pString_escStr cs tail]
      rfl
    by_cases h3 : c = '\x08'
    · subst h3
      show pString ('\\' :: 'b' :: (escStr cs ++ '"' :: tail)) = _
      rw [pString_b_escape, pString_escStr cs tail]
      rfl
    by_cases h4 : c = '\t'
    · subst h4
      show pString ('\\' :: 't' :: (escStr cs ++ '"' :: tail)) = _
      rw [pString_t_escape, pString_escStr cs tail]
      rfl
    by_cases h5 : c = '\n'
    · subst h5
      show pString ('\\' :: 'n' :: (escStr cs ++ '"' :: tail)) = _
      rw [pString_n_escape, pString_escStr cs tail]
      rfl
    by_cases h6 : c = '\x0c'
    · subst h6
      show pString ('\\' :: 'f' :: (escStr cs ++ '"' :: tail)) = _
      rw [pString_f_escape, pString_escStr cs tail]
      rfl
    by_cases h7 : c = '\r'
    · subst h7
      show pString ('\\' :: 'r' :: (escStr cs ++ '"' :: tail)) = _
      rw [pString_r_escape, pString_escStr cs tail]
      rfl
    by_cases h8 : c.toNat < 32
    · rw [escChar, if_neg h1, if_neg h2, if_neg h3, if_neg h4, if_neg h5,
          if_neg h6, if_neg h7, if_pos h8]
      show pString ('\\' :: 'u' :: '0' :: '0' :: hexDigitChar (c.toNat / 16) ::
        hexDigitChar (c.toNat % 16) :: (escStr cs ++ '"' :: tail)) = _
      rw [pString_u_escape c.toNat h8, pString_escStr cs tail]
      simp [Char.ofNat_toNat]
    · rw [escChar, if_neg h1, if_neg h2, if_neg h3, if_neg h4, if_neg h5,
          if_neg h6, if_neg h7, if_neg h8]
      show pString (c :: (escStr cs ++ '"' :: tail)) = _
      rw [pString_other c _ h1 h2, if_neg h8, pString_escStr cs tail]
      rfl

/-! ### Toward C8: number printing round trip -/

theorem spanDigits_sep (tail : List Char) (h : sepStart tail = true) :
    spanDigits tail = ([], tail) := by
  rcases tail with _ | ⟨c, r⟩
  · rfl
  · rw [sepStart] at h
    rcases Bool.or_eq_true_iff.mp h with h2 | h3
    · rcases Bool.or_eq_true_iff.mp h2 with h4 | h5
      · rw [spanDigits, if_neg (by rw [of_decide_eq_true h4]; decide)]
      · rw [spanDigits, if_neg (by rw [of_decide_eq_true h5]; decide)]
    · rw [spanDigits, if_neg (by rw [of_decide_eq_true h3]; decide)]

theorem pFrac_sep (tail : List Char) (h : sepStart tail = true) :
    pFrac tail = some ([], tail) := by
  rcases tail with _ | ⟨c, r⟩
  · rfl
  · rw [sepStart] at h
    rcases Bool.or_eq_true_iff.mp h with h2 | h3
    · rcases Bool.or_eq_true_iff.mp h2 with h4 | h5
      · rw [pFrac, if_neg (by rw [of_decide_eq_true h4]; decide)]
      · rw [pFrac, if_neg (by rw [of_decide_eq_true h5]; decide)]
    · rw [pFrac, if_neg (by rw [of_decide_eq_true h3]; decide)]

theorem pExp_sep (tail : List Char) (h : sepStart tail = true) :
    pExp tail = some (0, tail) := by
  rcases tail with _ | ⟨c, r⟩
  · rfl
  · rw [sepStart] at h
    rcases Bool.or_eq_true_iff.mp h with h2 | h3
    · rcases Bool.or_eq_true_iff.mp h2 with h4 | h5
      · rw [pExp, if_neg (by rw [of_decide_eq_true h4]; decide)]
      · rw [pExp, if_neg (by rw [of_decide_eq_true h5]; decide)]
    · rw [pExp, if_neg (by rw [of_decide_eq_true h3]; decide)]

theorem spanDigits_digits_append (ds tail : List Char)
    (hds : ∀ c ∈ ds, isDigitCh c = true) (ht : spanDigits tail = ([], tail)) :
    spanDigits (ds ++ tail) = (ds, tail) := by
  induction ds with
  | nil => simpa using ht
  | cons c r ih =>
    rw [List.cons_append, spanDigits, if_pos (hds c (by simp)),
        ih (fun c2 h2 => hds c2 (by simp [h2]))]

theorem digitsToNat_nil (acc : Nat) : digitsToNat acc [] = acc := rfl

theorem digitsToNat_cons (acc : Nat) (c : Char) (r : List Char) :
    digitsToNat acc (c :: r) = digitsToNat (acc * 10 + digVal c) r := rfl

theorem digitsToNat_append (acc : Nat) (xs ys : List Char) :
    digitsToNat acc (xs ++ ys) = digitsToNat (digitsToNat acc xs) ys := by
  induction xs generalizing acc with
  | nil => rfl
  | cons c r ih =>
    simp only [List.cons_append, digitsToNat_cons]
    exact ih _

theorem digitsToNat_acc (acc : Nat) (xs : List Char) :
    digitsToNat acc xs = acc * 10 ^ xs.length + digitsToNat 0 xs := by
  induction xs generalizing acc with
  | nil => simp [digitsToNat_nil]
  | cons c r ih =>
    simp only [digitsToNat_cons, List.length_cons]
    rw [ih, ih (0 * 10 + digVal c)]
    ring

theorem digitsToNat_zeros (z : Nat) (acc : Nat) :
    digitsToNat acc (List.replicate z '0') = acc * 10 ^ z := by
  induction z generalizing acc with
  | zero => simp [digitsToNat_nil]
  | succ z2 ih =>
    rw [List.replicate_succ, digitsToNat_cons, ih]
    have h0 : digVal '0' = 0 := rfl
    rw [h0]
    ring

theorem digVal_digitChar (d : Nat) (h : d < 10) : digVal (digitChar d) = d := by
  interval_cases d <;> rfl

theorem isDigitCh_digitChar (d : Nat) (h : d < 10) : isDigitCh (digitChar d) = true := by
  interval_cases d <;> rfl

theorem natDigitsAux_spec :
    ∀ (f n : Nat), n < f →
      (∀ c ∈ natDigitsAux f n, isDigitCh c = true) ∧
      digitsToNat 0 (natDigitsAux f n) = n ∧
      natDigitsAux f n ≠ [] ∧
      (∀ d ds2, natDigitsAux f n = d :: ds2 → d = '0' → n = 0)
  | 0, n, h => absurd h (by omega)
  | f + 1, n, h => by
    rw [natDigitsAux]
    by_cases h10 : n < 10
    · rw [if_pos h10]
      refine ⟨by simpa using isDigitCh_digitChar n h10, ?_, by simp, ?_⟩
      · show digitsToNat (0 * 10 + digVal (digitChar n)) [] = n
        rw [digVal_digitChar n h10, digitsToNat_nil]
        omega
      · intro d ds2 heq hd
        have hdn : d = digitChar n := (List.cons.injEq .. ▸ heq).1.symm
        subst hdn
        interval_cases n <;> first
          | rfl
          | (exfalso; exact absurd hd (by decide))
    · rw [if_neg h10]
      have hrec := natDigitsAux_spec f (n / 10) (by omega)
      refine ⟨?_, ?_, by simp, ?_⟩
      · intro c hc
        rcases List.mem_append.mp hc with h1 | h2
        · exact hrec.1 c h1
        · rw [List.mem_singleton.mp h2]
          exact isDigitCh_digitChar _ (by omega)
      · rw [digitsToNat_append, hrec.2.1, digitsToNat_cons,
            digVal_digitChar _ (by omega), digitsToNat_nil]
        omega
      · intro d ds2 heq hd
        rcases haux : natDigitsAux f (n / 10) with _ | ⟨hd2, tl⟩
        · exact absurd haux hrec.2.2.1
        · rw [haux, List.cons_append] at heq
          have hdd : hd2 = d := (List.cons.injEq .. ▸ heq).1
          subst hdd
          have := hrec.2.2.2 hd2 tl haux hd
          omega

theorem natDigits_digits (n : Nat) : ∀ c ∈ natDigits n, isDigitCh c = true :=
  (natDigitsAux_spec (n + 1) n (by omega)).1

theorem digitsToNat_natDigits (n : Nat) : digitsToNat 0 (natDigits n) = n :=
  (natDigitsAux_spec (n + 1) n (by omega)).2.1

theorem natDigits_ne_nil (n : Nat) : natDigits n ≠ [] :=
  (natDigitsAux_spec (n + 1) n (by omega)).2.2.1

theorem natDigits_head_zero (n : Nat) (d : Char) (ds : List Char)
    (heq : natDigits n = d :: ds) (hd : d = '0') : n = 0 ∧ ds = [] := by
  have hn0 : n = 0 := (natDigitsAux_spec (n + 1) n (by omega)).2.2.2 d ds heq hd
  subst hn0
  have : natDigits 0 = ['0'] := rfl
  rw [this] at heq
  exact ⟨rfl, ((List.cons.injEq .. ▸ heq).2).symm⟩

theorem decToNum_fix (m : Int) (k : Nat) (h : k = 0 ∨ ¬ m % 10 = 0) :
    decToNum m k = (m, k) := by
  rcases k with _ | k2
  · rfl
  · rcases h with h0 | hm
    · exact absurd h0 (by omega)
    · rw [decToNum, if_neg hm]

theorem decToNum_inv : ∀ (k : Nat) (m : Int),
    (decToNum m k).2 = 0 ∨ ¬ (decToNum m k).1 % 10 = 0
  | 0, m => Or.inl rfl
  | k + 1, m => by
    rw [decToNum]
    by_cases h : m % 10 = 0
    · rw [if_pos h]
      exact decToNum_inv k (m / 10)
    · rw [if_neg h]
      exact Or.inr h

theorem digit_not_dash (c : Char) (h : isDigitCh c = true) : ¬ c = '-' :=
  fun he => absurd (he ▸ h) (by decide)

theorem replicate_zero_digits (z : Nat) :
    ∀ c ∈ List.replicate z '0', isDigitCh c = true := by
  intro c hc
  rw [List.eq_of_mem_replicate hc]
  rfl

theorem pNumCore_roundtrip (neg : Bool) (a k : Nat) (tail : List Char)
    (htail : sepStart tail = true)
    (hinv : k = 0 ∨ ¬ ((if neg then -(a : Int) else (a : Int)) % 10 = 0)) :
    pNumCore neg (numCharsAbs a k ++ tail) =
      some (.num (if neg then -(a : Int) else (a : Int)) k, tail) := by
  unfold numCharsAbs
  obtain ⟨d, ds, hds⟩ : ∃ d ds, natDigits a = d :: ds := by
    rcases h2 : natDigits a with _ | ⟨x, y⟩
    · exact absurd h2 (natDigits_ne_nil a)
    · exact ⟨x, y, rfl⟩
  have hdig : ∀ c ∈ natDigits a, isDigitCh c = true := natDigits_digits a
  have hval : digitsToNat 0 (natDigits a) = a := digitsToNat_natDigits a
  by_cases hk : k = 0
  · subst hk
    rw [if_pos rfl, hds]
    unfold pNumCore
    rw [spanDigits_digits_append (d :: ds) tail (hds ▸ hdig)
      (spanDigits_sep tail htail)]
    have hno : ¬ (d = '0' ∧ ds ≠ []) := by
      rintro ⟨h0, hne⟩
      rcases natDigits_head_zero a d ds hds h0 with ⟨_, hds0⟩
      exact hne hds0
    have hval2 : digitsToNat 0 (d :: ds) = a := by
      rw [← hds]
      exact hval
    simp [hno, pFrac_sep tail htail, pExp_sep tail htail, hval2]
  · rw [if_neg hk]
    have hscale : ¬ ((k : Int) - 0 ≤ 0) := by omega
    have htoNat : ((k : Int) - 0).toNat = k := by omega
    have hfix : decToNum (if neg then -(a : Int) else (a : Int)) k =
        (if neg then -(a : Int) else (a : Int), k) :=
      decToNum_fix _ _ (by
        rcases hinv with h0 | hm
        · exact absurd h0 hk
        · exact Or.inr hm)
    by_cases hlen : (natDigits a).length ≤ k
    · rw [if_pos hlen]
      unfold pNumCore
      have hsp : spanDigits (('0' :: '.' ::
          (List.replicate (k - (natDigits a).length) '0' ++ natDigits a)) ++ tail) =
          (['0'], '.' :: ((List.replicate (k - (natDigits a).length) '0' ++
            natDigits a) ++ tail)) := by
        rw [List.cons_append, List.cons_append, spanDigits, if_pos (by decide),
          spanDigits, if_neg (by decide)]
      rw [hsp]
      have hfr : pFrac ('.' :: ((List.replicate (k - (natDigits a).length) '0' ++
          natDigits a) ++ tail)) =
          some (List.replicate (k - (natDigits a).length) '0' ++ natDigits a, tail) := by
        rw [pFrac, if_pos rfl,
          spanDigits_digits_append
            (List.replicate (k - (natDigits a).length) '0' ++ natDigits a) tail
            (by
              intro c hc
              rcases List.mem_append.mp hc with h1 | h2
              · exact replicate_zero_digits _ c h1
              · exact hdig c h2)
            (spanDigits_sep tail htail)]
        have hne2 : ¬ (List.replicate (k - (natDigits a).length) '0' ++
            natDigits a).isEmpty = true := by
          rw [List.isEmpty_iff]
          intro hcon
          exact natDigits_ne_nil a (List.append_eq_nil.mp hcon).2
        simp [hne2]
      have hval3 : digitsToNat 0 ('0' ::
          (List.replicate (k - (natDigits a).length) '0' ++ natDigits a)) = a := by
        rw [digitsToNat_cons, digitsToNat_append, digitsToNat_zeros]
        have h00 : digVal '0' = 0 := rfl
        rw [h00]
        simp [hval]
      have hflen : (List.replicate (k - (natDigits a).length) '0' ++
          natDigits a).length = k := by
        simp
        omega
      simp only [hfr, pExp_sep tail htail]
      simp [hval3, hflen, hk, hfix]
    · rw [if_neg hlen]
      obtain ⟨j, hj⟩ : ∃ j, (natDigits a).length - k = j + 1 :=
        ⟨(natDigits a).length - k - 1, by omega⟩
      rw [hds] at hj hlen ⊢
      rw [hj, List.take_succ_cons, List.drop_succ_cons]
      have hsp : spanDigits ((d :: List.take j ds ++
          '.' :: List.drop j ds) ++ tail) =
          (d :: List.take j ds, ('.' :: List.drop j ds) ++ tail) := by
        rw [List.append_assoc]
        rw [show ('.' :: List.drop j ds) ++ tail = '.' :: (List.drop j ds ++ tail)
          from rfl]
        exact spanDigits_digits_append _ _
          (by
            intro c hc
            apply hdig
            rw [hds]
            rcases List.mem_cons.mp hc with h1 | h2
            · exact h1 ▸ List.mem_cons_self _ _
            · exact List.mem_cons_of_mem _ (List.mem_of_mem_take h2))
          (by rw [spanDigits, if_neg (by decide)])
      unfold pNumCore
      rw [hsp]
      have hd0 : ¬ d = '0' := by
        intro h0
        rcases natDigits_head_zero a d ds hds h0 with ⟨ha0, hds0⟩
        subst hds0
        simp at hj
        have : (natDigits a).length = 1 := by rw [hds]; rfl
        omega
      have hno : ¬ (d = '0' ∧ List.take j ds ≠ []) := by
        rintro ⟨h0, _⟩
        exact hd0 h0
      have hdroplen : (List.drop j ds).length = k := by
        have h1 := List.length_drop j ds
        have hlds : (d :: ds).length = ds.length + 1 := by simp
        omega
      have hfr : pFrac (('.' :: List.drop j ds) ++ tail) =
          some (List.drop j ds, tail) := by
        rw [List.cons_append, pFrac, if_pos rfl,
          spanDigits_digits_append _ tail
            (by
              intro c hc
              apply hdig
              rw [hds]
              exact List.mem_cons_of_mem _ (List.mem_of_mem_drop hc))
            (spanDigits_sep tail htail)]
        have hne2 : ¬ (List.drop j ds).isEmpty = true := by
          rw [List.isEmpty_iff, ← List.length_eq_zero]
          omega
        simp [hne2]
      have hval4 : digitsToNat 0 (d :: (List.take j ds ++ List.drop j ds)) = a := by
        rw [List.take_append_drop, ← hds]
        exact hval
      have hval4b : digitsToNat 0 (d :: ds) = a := by
        rw [← hds]
        exact hval
      simp only [hfr, pExp_sep tail htail]
      simp [hno, hval4, hval4b, hdroplen, hk, hfix]
      intro h0 _
      exact absurd h0 hd0

theorem numCharsAbs_head_digit (a k : Nat) :
    ∃ c rest, numCharsAbs a k = c :: rest ∧ isDigitCh c = true := by
  obtain ⟨d, ds, hds⟩ : ∃ d ds, natDigits a = d :: ds := by
    rcases h2 : natDigits a with _ | ⟨x, y⟩
    · exact absurd h2 (natDigits_ne_nil a)
    · exact ⟨x, y, rfl⟩
  have hd : isDigitCh d = true := natDigits_digits a d (by rw [hds]; simp)
  unfold numCharsAbs
  by_cases hk : k = 0
  · rw [if_pos hk, hds]
    exact ⟨d, ds, rfl, hd⟩
  · rw [if_neg hk]
    by_cases hlen : (natDigits a).length ≤ k
    · rw [if_pos hlen]
      exact ⟨'0', _, rfl, by decide⟩
    · rw [if_neg hlen]
      obtain ⟨j, hj⟩ : ∃ j, (natDigits a).length - k = j + 1 :=
        ⟨(natDigits a).length - k - 1, by omega⟩
      rw [hds] at hj ⊢
      rw [hj, List.take_succ_cons]
      exact ⟨d, _, rfl, hd⟩

theorem pNumber_numChars (m : Int) (k : Nat) (tail : List Char)
    (htail : sepStart tail = true) (hinv : k = 0 ∨ ¬ m % 10 = 0) :
    pNumber (numChars m k ++ tail) = some (.num m k, tail) := by
  by_cases hm : m < 0
  · have hv : -(m.natAbs : Int) = m := by omega
    have hco := pNumCore_roundtrip true m.natAbs k tail htail
      (by simp only [if_pos]; rw [hv]; exact hinv)
    simp only [if_pos] at hco
    rw [hv] at hco
    rw [numChars, if_pos hm, List.cons_append, pNumber, if_pos rfl]
    exact hco
  · have hv : ((m.natAbs : Int)) = m := by omega
    have hco := pNumCore_roundtrip false m.natAbs k tail htail
      (by simp only [Bool.false_eq_true, if_neg]; rw [hv]; exact hinv)
    simp only [Bool.false_eq_true, if_neg] at hco
    rw [hv] at hco
    rw [numChars, if_neg hm]
    obtain ⟨c, rest, hcr, hcd⟩ := numCharsAbs_head_digit m.natAbs k
    rw [hcr, List.cons_append, pNumber, if_neg (digit_not_dash c hcd),
      ← List.cons_append, ← hcr]
    exact hco

/-! ### Toward C8: parser length accounting -/

theorem spanDigits_eq_append : ∀ l : List Char, (spanDigits l).1 ++ (spanDigits l).2 = l
  | [] => rfl
  | c :: r => by
    rw [spanDigits]
    by_cases h : isDigitCh c = true
    · simp only [if_pos h, List.cons_append, List.cons.injEq, true_and]
      exact spanDigits_eq_append r
    · simp [if_neg h]

theorem spanDigits_len (l : List Char) : (spanDigits l).2.length ≤ l.length := by
  have := congrArg List.length (spanDigits_eq_append l)
  rw [List.length_append] at this
  omega

theorem pFrac_le (l fs r : List Char) (h : pFrac l = some (fs, r)) :
    r.length ≤ l.length := by
  rcases l with _ | ⟨c, l2⟩
  · rw [pFrac] at h
    have h2 := congrArg Prod.snd (Option.some_inj.mp h)
    simp at h2
    rw [← h2]
  · rw [pFrac] at h
    by_cases hc : c = '.'
    · rw [if_pos hc] at h
      by_cases he : (spanDigits l2).1.isEmpty = true
      · rw [if_pos he] at h
        exact absurd h (by simp)
      · rw [if_neg he] at h
        have h2 := congrArg Prod.snd (Option.some_inj.mp h)
        simp at h2
        rw [← h2]
        have h3 := spanDigits_len l2
        simp
        omega
    · rw [if_neg hc] at h
      have h2 := congrArg Prod.snd (Option.some_inj.mp h)
      simp at h2
      rw [← h2]

theorem pExpTail_le (l : List Char) (e : Int) (r : List Char)
    (h : pExpTail l = some (e, r)) : r.length ≤ l.length := by
  rcases l with _ | ⟨c, l2⟩
  · exact absurd h (by rw [show pExpTail [] = none from rfl]; simp)
  · rw [pExpTail] at h
    have hspan2 : (spanDigits l2).2.length ≤ l2.length := spanDigits_len l2
    have hspan3 : (spanDigits (c :: l2)).2.length ≤ (c :: l2).length :=
      spanDigits_len (c :: l2)
    by_cases h1 : c = '+'
    · rw [if_pos h1] at h
      by_cases he : (spanDigits l2).1.isEmpty = true
      · rw [if_pos he] at h
        exact absurd h (by simp)
      · rw [if_neg he] at h
        have h2 := congrArg Prod.snd (Option.some_inj.mp h)
        simp at h2
        rw [← h2]
        simp
        omega
    · rw [if_neg h1] at h
      by_cases h2 : c = '-'
      · rw [if_pos h2] at h
        by_cases he : (spanDigits l2).1.isEmpty = true
        · rw [if_pos he] at h
          exact absurd h (by simp)
        · rw [if_neg he] at h
          have h3 := congrArg Prod.snd (Option.some_inj.mp h)
          simp at h3
          rw [← h3]
          simp
          omega
      · rw [if_neg h2] at h
        by_cases he : (spanDigits (c :: l2)).1.isEmpty = true
        · rw [if_pos he] at h
          exact absurd h (by simp)
        · rw [if_neg he] at h
          have h3 := congrArg Prod.snd (Option.some_inj.mp h)
          simp at h3
          rw [← h3]
          exact hspan3

theorem pExp_le (l : List Char) (e : Int) (r : List Char)
    (h : pExp l = some (e, r)) : r.length ≤ l.length := by
  rcases l with _ | ⟨c, l2⟩
  · rw [pExp] at h
    have h2 := congrArg Prod.snd (Option.some_inj.mp h)
    simp at h2
    rw [← h2]
  · rw [pExp] at h
    by_cases h1 : c = 'e' ∨ c = 'E'
    · rw [if_pos h1] at h
      have := pExpTail_le l2 e r h
      simp
      omega
    · rw [if_neg h1] at h
      have h2 := congrArg Prod.snd (Option.some_inj.mp h)
      simp at h2
      rw [← h2]

theorem pNumCore_le (neg : Bool) (l : List Char) (v : JVal) (r : List Char)
    (h : pNumCore neg l = some (v, r)) : r.length ≤ l.length := by
  unfold pNumCore at h
  rcases hsp : spanDigits l with ⟨ds0, l2⟩
  rw [hsp] at h
  have hl2 : l2.length ≤ l.length := by
    have := spanDigits_len l
    rw [hsp] at this
    exact this
  rcases ds0 with _ | ⟨d, ds⟩
  · simp at h
  · by_cases hd0 : d = '0' ∧ ds ≠ []
    · simp only [if_pos hd0] at h
      simp at h
    · simp only [if_neg hd0] at h
      rcases hfr : pFrac l2 with _ | ⟨fs, l3⟩
      · rw [hfr] at h
        simp at h
      · rw [hfr] at h
        simp only [] at h
        have hl3 : l3.length ≤ l2.length := pFrac_le l2 fs l3 hfr
        rcases hexp : pExp l3 with _ | ⟨e, l4⟩
        · rw [hexp] at h
          simp at h
        · rw [hexp] at h
          have hl4 : l4.length ≤ l3.length := pExp_le l3 e l4 hexp
          simp only [] at h
          split at h
          · have h2 := congrArg Prod.snd (Option.some_inj.mp h)
            simp at h2
            rw [← h2]
            omega
          · have h2 := congrArg Prod.snd (Option.some_inj.mp h)
            simp at h2
            rw [← h2]
            omega

theorem pNumber_le (l : List Char) (v : JVal) (r : List Char)
    (h : pNumber l = some (v, r)) : r.length ≤ l.length := by
  rcases l with _ | ⟨c, l2⟩
  · exact absurd h (by rw [show pNumber [] = none from rfl]; simp)
  · rw [pNumber] at h
    by_cases h1 : c = '-'
    · rw [if_pos h1] at h
      have := pNumCore_le true l2 v r h
      simp
      omega
    · rw [if_neg h1] at h
      exact pNumCore_le false (c :: l2) v r h

/-! ### Toward C8: printable values -/

theorem setField_of_lookup_none (k : String) (v : JVal) :
    ∀ fs : List (String × JVal), lookupField fs k = none →
    setField fs k v = fs ++ [(k, v)]
  | [], _ => rfl
  | (k0, v0) :: r, h => by
    rw [lookupField] at h
    by_cases he : k0 = k
    · rw [if_pos he] at h
      exact absurd h (by simp)
    · rw [if_neg he] at h
      rw [setField, if_neg he, setField_of_lookup_none k v r h]
      simp

theorem any_key_setField (k k0 : String) (v : JVal) :
    ∀ fs : List (String × JVal),
    (setField fs k v).any (fun kv => kv.1 == k0) =
      (fs.any (fun kv => kv.1 == k0) || (k == k0))
  | [] => by simp [setField]
  | (ka, va) :: r => by
    rw [setField]
    by_cases he : ka = k
    · subst he
      rw [if_pos rfl, List.any_cons, List.any_cons]
      rcases hb : (ka == k0) <;> rcases hr : r.any (fun kv => kv.1 == k0) <;>
        simp [hb, hr]
    · rw [if_neg he, List.any_cons, List.any_cons, any_key_setField k k0 v r,
        Bool.or_assoc]

theorem keysNodup_setField (k : String) (v : JVal) :
    ∀ fs : List (String × JVal), keysNodup fs = true →
    keysNodup (setField fs k v) = true
  | [], _ => rfl
  | (k0, v0) :: r, h => by
    rw [keysNodup, Bool.and_eq_true] at h
    rw [setField]
    by_cases he : k0 = k
    · rw [if_pos he, keysNodup, Bool.and_eq_true]
      exact h
    · rw [if_neg he, keysNodup, Bool.and_eq_true]
      refine ⟨?_, keysNodup_setField k v r h.2⟩
      rw [any_key_setField]
      have h1 := h.1
      simp only [Bool.not_eq_true'] at h1 ⊢
      rw [h1]
      simp
      intro hc
      exact absurd hc.symm he

theorem printOKFlds_setField (k : String) (v : JVal) (hv : printOK v = true) :
    ∀ fs : List (String × JVal), printOKFlds fs = true →
    printOKFlds (setField fs k v) = true
  | [], _ => by
    rw [setField]
    simp [printOKFlds, hv]
  | (k0, v0) :: r, h => by
    rw [printOKFlds, Bool.and_eq_true] at h
    rw [setField]
    by_cases he : k0 = k
    · rw [if_pos he, printOKFlds, Bool.and_eq_true]
      exact ⟨hv, h.2⟩
    · rw [if_neg he, printOKFlds, Bool.and_eq_true]
      exact ⟨h.1, printOKFlds_setField k v hv r h.2⟩

theorem collapseFields_foldl_nodup :
    ∀ (fs acc : List (String × JVal)), keysNodup acc = true →
    keysNodup (fs.foldl (fun acc kv => setField acc kv.1 kv.2) acc) = true
  | [], acc, h => h
  | (k, v) :: r, acc, h => by
    rw [List.foldl_cons]
    exact collapseFields_foldl_nodup r (setField acc k v) (keysNodup_setField k v acc h)

theorem keysNodup_collapseFields (fs : List (String × JVal)) :
    keysNodup (collapseFields fs) = true := by
  rw [collapseFields]
  exact collapseFields_foldl_nodup fs [] rfl

theorem collapseFields_foldl_printOK :
    ∀ (fs acc : List (String × JVal)), printOKFlds fs = true →
    printOKFlds acc = true →
    printOKFlds (fs.foldl (fun acc kv => setField acc kv.1 kv.2) acc) = true
  | [], acc, _, ha => ha
  | (k, v) :: r, acc, h, ha => by
    rw [printOKFlds, Bool.and_eq_true] at h
    rw [List.foldl_cons]
    exact collapseFields_foldl_printOK r (setField acc k v) h.2
      (printOKFlds_setField k v h.1 acc ha)

theorem printOKFlds_collapseFields (fs : List (String × JVal))
    (h : printOKFlds fs = true) : printOKFlds (collapseFields fs) = true := by
  rw [collapseFields]
  exact collapseFields_foldl_printOK fs [] h rfl

theorem lookupField_append (k : String) (b : List (String × JVal)) :
    ∀ a : List (String × JVal),
    lookupField (a ++ b) k =
      (match lookupField a k with
       | some v => some v
       | none => lookupField b k)
  | [] => by simp [lookupField]
  | (k0, v0) :: r => by
    rw [List.cons_append, lookupField, lookupField]
    by_cases he : k0 = k
    · rw [if_pos he, if_pos he]
    · rw [if_neg he, if_neg he, lookupField_append k b r]

theorem collapseFields_foldl_id :
    ∀ (fs acc : List (String × JVal)), keysNodup fs = true →
    (∀ kv ∈ fs, lookupField acc kv.1 = none) →
    fs.foldl (fun acc kv => setField acc kv.1 kv.2) acc = acc ++ fs
  | [], acc, _, _ => by simp
  | (k, v) :: r, acc, h, ha => by
    rw [keysNodup, Bool.and_eq_true] at h
    rw [List.foldl_cons,
      setField_of_lookup_none k v acc (ha (k, v) (by simp)),
      collapseFields_foldl_id r (acc ++ [(k, v)]) h.2 ?_]
    · simp
    · intro kv hkv
      rw [lookupField_append]
      rw [ha kv (by simp [hkv])]
      have h1 := h.1
      simp only [Bool.not_eq_true', List.any_eq_false] at h1
      have h2 := h1 kv hkv
      rw [lookupField]
      rw [if_neg ?_]
      · rfl
      · intro he
        rw [he] at h2
        simp at h2

theorem collapseFields_nodup_id (fs : List (String × JVal))
    (h : keysNodup fs = true) : collapseFields fs = fs := by
  rw [collapseFields, collapseFields_foldl_id fs [] h (by intro kv _; rfl)]
  simp

theorem printOK_num_zero (m : Int) : printOK (.num m 0) = true := by
  simp [printOK]

theorem printOK_num_decToNum (m : Int) (k : Nat) :
    printOK (.num (decToNum m k).1 (decToNum m k).2) = true := by
  rcases decToNum_inv k m with hz | hnz
  · simp [printOK, hz]
  · simp [printOK, hnz]

theorem pNumCore_printOK (neg : Bool) (l : List Char) (v : JVal) (r : List Char)
    (h : pNumCore neg l = some (v, r)) : printOK v = true := by
  unfold pNumCore at h
  rcases hsp : spanDigits l with ⟨ds0, l2⟩
  rw [hsp] at h
  rcases ds0 with _ | ⟨d, ds⟩
  · simp at h
  · by_cases hd0 : d = '0' ∧ ds ≠ []
    · simp only [if_pos hd0] at h
      simp at h
    · simp only [if_neg hd0] at h
      rcases hfr : pFrac l2 with _ | ⟨fs, l3⟩
      · rw [hfr] at h
        simp at h
      · rw [hfr] at h
        simp only [] at h
        rcases hexp : pExp l3 with _ | ⟨e, l4⟩
        · rw [hexp] at h
          simp at h
        · rw [hexp] at h
          simp only [] at h
          split at h
          · have h1 := congrArg Prod.fst (Option.some_inj.mp h)
            simp at h1
            rw [← h1]
            exact printOK_num_zero _
          · have h1 := congrArg Prod.fst (Option.some_inj.mp h)
            simp at h1
            rw [← h1]
            exact printOK_num_decToNum _ _

theorem pNumber_printOK (l : List Char) (v : JVal) (r : List Char)
    (h : pNumber l = some (v, r)) : printOK v = true := by
  rcases l with _ | ⟨c, l2⟩
  · exact absurd h (by rw [show pNumber [] = none from rfl]; simp)
  · rw [pNumber] at h
    by_cases h1 : c = '-'
    · rw [if_pos h1] at h
      exact pNumCore_printOK true l2 v r h
    · rw [if_neg h1] at h
      exact pNumCore_printOK false (c :: l2) v r h

theorem parsePrintOK : ∀ fuel : Nat,
    (∀ l v r, pValue fuel l = some (v, r) → printOK v = true) ∧
    (∀ l vs r, pItems fuel l = some (vs, r) → printOKElems vs = true) ∧
    (∀ l fs r, pFields fuel l = some (fs, r) → printOKFlds fs = true) := by
  intro fuel
  induction fuel with
  | zero =>
    refine ⟨?_, ?_, ?_⟩
    · intro l v r h
      exact absurd h (by rw [show pValue 0 l = none from rfl]; simp)
    · intro l vs r h
      exact absurd h (by rw [show pItems 0 l = none from rfl]; simp)
    · intro l fs r h
      exact absurd h (by rw [show pFields 0 l = none from rfl]; simp)
  | succ fuel ih =>
    refine ⟨?_, ?_, ?_⟩
    · intro l v r h
      rw [pValue] at h
      rcases hsw : skipWs l with _ | ⟨c, r0⟩
      · rw [hsw] at h
        simp at h
      · rw [hsw] at h
        simp only [] at h
        by_cases h1 : c = 'n'
        · rw [if_pos h1] at h
          split at h
          · have hv := congrArg Prod.fst (Option.some_inj.mp h)
            simp at hv
            rw [← hv]
            simp [printOK]
          · simp at h
        · rw [if_neg h1] at h
          by_cases h2 : c = 't'
          · rw [if_pos h2] at h
            split at h
            · have hv := congrArg Prod.fst (Option.some_inj.mp h)
              simp at hv
              rw [← hv]
              simp [printOK]
            · simp at h
          · rw [if_neg h2] at h
            by_cases h3 : c = 'f'
            · rw [if_pos h3] at h
              split at h
              · have hv := congrArg Prod.fst (Option.some_inj.mp h)
                simp at hv
                rw [← hv]
                simp [printOK]
              · simp at h
            · rw [if_neg h3] at h
              by_cases h4 : c = '"'
              · rw [if_pos h4] at h
                obtain ⟨p, hp, hfp⟩ := Option.map_eq_some'.mp h
                have hv := congrArg Prod.fst hfp
                simp at hv
                rw [← hv]
                simp [printOK]
              · rw [if_neg h4] at h
                by_cases h5 : c = '['
                · rw [if_pos h5] at h
                  rcases hsw2 : skipWs r0 with _ | ⟨c2, r2⟩
                  · rw [hsw2] at h
                    simp at h
                  · rw [hsw2] at h
                    simp only [] at h
                    by_cases h6 : c2 = ']'
                    · rw [if_pos h6] at h
                      have hv := congrArg Prod.fst (Option.some_inj.mp h)
                      simp at hv
                      rw [← hv]
                      simp [printOK, printOKElems]
                    · rw [if_neg h6] at h
                      rcases hpi : pItems fuel (c2 :: r2) with _ | ⟨vs, r3⟩
                      · rw [hpi] at h
                        simp at h
                      · rw [hpi] at h
                        simp only [] at h
                        have hv := congrArg Prod.fst (Option.some_inj.mp h)
                        simp at hv
                        rw [← hv]
                        simp [printOK, ih.2.1 _ _ _ hpi]
                · rw [if_neg h5] at h
                  by_cases h7 : c = '\x7b'
                  · rw [if_pos h7] at h
                    rcases hsw2 : skipWs r0 with _ | ⟨c2, r2⟩
                    · rw [hsw2] at h
                      simp at h
                    · rw [hsw2] at h
                      simp only [] at h
                      by_cases h8 : c2 = '\x7d'
                      · rw [if_pos h8] at h
                        have hv := congrArg Prod.fst (Option.some_inj.mp h)
                        simp at hv
                        rw [← hv]
                        simp [printOK, keysNodup, printOKFlds]
                      · rw [if_neg h8] at h
                        rcases hpf : pFields fuel (c2 :: r2) with _ | ⟨fs, r3⟩
                        · rw [hpf] at h
                          simp at h
                        · rw [hpf] at h
                          simp only [] at h
                          have hv := congrArg Prod.fst (Option.some_inj.mp h)
                          simp at hv
                          rw [← hv]
                          simp [printOK, keysNodup_collapseFields,
                            printOKFlds_collapseFields _ (ih.2.2 _ _ _ hpf)]
                  · rw [if_neg h7] at h
                    exact pNumber_printOK _ _ _ h
    · intro l vs r h
      rw [pItems] at h
      rcases hpv : pValue fuel l with _ | ⟨v, r1⟩
      · rw [hpv] at h
        simp at h
      · rw [hpv] at h
        simp only [] at h
        rcases hsw : skipWs r1 with _ | ⟨c, r2⟩
        · rw [hsw] at h
          simp at h
        · rw [hsw] at h
          simp only [] at h
          by_cases hc : c = ','
          · rw [if_pos hc] at h
            rcases hpi : pItems fuel r2 with _ | ⟨vs2, r3⟩
            · rw [hpi] at h
              simp at h
            · rw [hpi] at h
              simp only [] at h
              have hv := congrArg Prod.fst (Option.some_inj.mp h)
              simp at hv
              rw [← hv]
              simp [printOKElems, ih.1 _ _ _ hpv, ih.2.1 _ _ _ hpi]
          · rw [if_neg hc] at h
            by_cases hc2 : c = ']'
            · rw [if_pos hc2] at h
              have hv := congrArg Prod.fst (Option.some_inj.mp h)
              simp at hv
              rw [← hv]
              simp [printOKElems, ih.1 _ _ _ hpv]
            · rw [if_neg hc2] at h
              simp at h
    · intro l fs r h
      rw [pFields] at h
      rcases hsw : skipWs l with _ | ⟨c, r0⟩
      · rw [hsw] at h
        simp at h
      · rw [hsw] at h
        simp only [] at h
        by_cases hc : c = '"'
        · rw [if_pos hc] at h
          rcases hps : pString r0 with _ | ⟨kcs, r2⟩
          · rw [hps] at h
            simp at h
          · rw [hps] at h
            simp only [] at h
            rcases hsw2 : skipWs r2 with _ | ⟨c2, r3⟩
            · rw [hsw2] at h
              simp at h
            · rw [hsw2] at h
              simp only [] at h
              by_cases hc2 : c2 = ':'
              · rw [if_pos hc2] at h
                rcases hpv : pValue fuel r3 with _ | ⟨v, r4⟩
                · rw [hpv] at h
                  simp at h
                · rw [hpv] at h
                  simp only [] at h
                  rcases hsw3 : skipWs r4 with _ | ⟨c3, r5⟩
                  · rw [hsw3] at h
                    simp at h
                  · rw [hsw3] at h
                    simp only [] at h
                    by_cases hc3 : c3 = ','
                    · rw [if_pos hc3] at h
                      rcases hpf : pFields fuel r5 with _ | ⟨fs2, r6⟩
                      · rw [hpf] at h
                        simp at h
                      · rw [hpf] at h
                        simp only [] at h
                        have hv := congrArg Prod.fst (Option.some_inj.mp h)
                        simp at hv
                        rw [← hv]
                        simp [printOKFlds, ih.1 _ _ _ hpv, ih.2.2 _ _ _ hpf]
                    · rw [if_neg hc3] at h
                      by_cases hc4 : c3 = '\x7d'
                      · rw [if_pos hc4] at h
                        have hv := congrArg Prod.fst (Option.some_inj.mp h)
                        simp at hv
                        rw [← hv]
                        simp [printOKFlds, ih.1 _ _ _ hpv]
                      · rw [if_neg hc4] at h
                        simp at h
              · rw [if_neg hc2] at h
                simp at h
        · rw [if_neg hc] at h
          simp at h

theorem jsonParse_printOK (s : String) (v : JVal) (h : jsonParse s = some v) :
    printOK v = true := by
  rw [jsonParse] at h
  rcases hpv : pValue (s.length + 1) s.data with _ | ⟨w, rest⟩
  · rw [hpv] at h
    simp at h
  · rw [hpv] at h
    simp only [] at h
    split at h
    · have hv := Option.some_inj.mp h
      rw [← hv]
      exact (parsePrintOK (s.length + 1)).1 _ _ _ hpv
    · simp at h

/-! ### Toward C8: print-parse round trip -/

theorem digit_head_fallthrough (c : Char) (h : c = '-' ∨ isDigitCh c = true) :
    ¬ (c = ' ' ∨ c = '\t' ∨ c = '\n' ∨ c = '\r') ∧
    ¬ c = 'n' ∧ ¬ c = 't' ∧ ¬ c = 'f' ∧ ¬ c = '"' ∧ ¬ c = '[' ∧
    ¬ c = '\x7b' ∧ ¬ c = ']' := by
  rcases h with h | h
  · subst h
    exact ⟨by decide, by decide, by decide, by decide, by decide, by decide,
      by decide, by decide⟩
  · refine ⟨?_, ?_, ?_, ?_, ?_, ?_, ?_, ?_⟩
    · rintro (rfl | rfl | rfl | rfl) <;> exact absurd h (by decide)
    · rintro rfl; exact absurd h (by decide)
    · rintro rfl; exact absurd h (by decide)
    · rintro rfl; exact absurd h (by decide)
    · rintro rfl; exact absurd h (by decide)
    · rintro rfl; exact absurd h (by decide)
    · rintro rfl; exact absurd h (by decide)
    · rintro rfl; exact absurd h (by decide)

theorem numChars_head (m : Int) (k : Nat) :
    ∃ c t, numChars m k = c :: t ∧ (c = '-' ∨ isDigitCh c = true) := by
  rw [numChars]
  by_cases hm : m < 0
  · rw [if_pos hm]
    exact ⟨'-', numCharsAbs m.natAbs k, rfl, Or.inl rfl⟩
  · rw [if_neg hm]
    obtain ⟨c, rest, hcr, hd⟩ := numCharsAbs_head_digit m.natAbs k
    exact ⟨c, rest, hcr, Or.inr hd⟩

theorem strVal_head (v : JVal) :
    ∃ c t, strVal v = c :: t ∧
      ¬ (c = ' ' ∨ c = '\t' ∨ c = '\n' ∨ c = '\r') ∧ ¬ c = ']' := by
  rcases v with _ | b | ⟨m, k⟩ | s | ⟨es, ps⟩ | fs
  · exact ⟨'n', ['u', 'l', 'l'], by simp [strVal], by decide, by decide⟩
  · rcases b
    · exact ⟨'f', ['a', 'l', 's', 'e'], by simp [strVal], by decide, by decide⟩
    · exact ⟨'t', ['r', 'u', 'e'], by simp [strVal], by decide, by decide⟩
  · obtain ⟨c, t, hct, hd⟩ := numChars_head m k
    obtain ⟨hw, _, _, _, _, _, _, hne⟩ := digit_head_fallthrough c hd
    refine ⟨c, t, ?_, hw, hne⟩
    rw [show strVal (.num m k) = numChars m k from by simp [strVal], hct]
  · exact ⟨'"', escStr s.data ++ ['"'], by simp [strVal, quoteStr], by decide,
      by decide⟩
  · exact ⟨'[', strElems es ++ [']'], by simp [strVal], by decide, by decide⟩
  · exact ⟨'\x7b', strFlds fs ++ ['\x7d'], by simp [strVal], by decide, by decide⟩

theorem strElems_cons_ex (v0 : JVal) (es2 : List JVal) :
    ∃ X, strElems (v0 :: es2) = strVal v0 ++ X := by
  rcases es2 with _ | ⟨w, r⟩
  · exact ⟨[], by simp [strElems]⟩
  · exact ⟨',' :: strElems (w :: r), by simp [strElems]⟩

theorem strFlds_cons_ex (k0 : String) (w0 : JVal) (fs2 : List (String × JVal)) :
    ∃ X, strFlds ((k0, w0) :: fs2) = '"' :: X := by
  rcases fs2 with _ | ⟨f, r⟩
  · exact ⟨escStr k0.data ++ ('"' :: ':' :: strVal w0), by simp [strFlds, quoteStr]⟩
  · exact ⟨escStr k0.data ++ ('"' :: ':' :: (strVal w0 ++ ',' :: strFlds (f :: r))),
      by simp [strFlds, quoteStr]⟩

theorem printParse : ∀ fuel : Nat,
    (∀ v tail, printOK v = true → sepStart tail = true →
      (strVal v).length < fuel →
      pValue fuel (strVal v ++ tail) = some (v, tail)) ∧
    (∀ es tail, printOKElems es = true → es ≠ [] →
      (strElems es).length + 1 < fuel →
      pItems fuel (strElems es ++ (']' :: tail)) = some (es, tail)) ∧
    (∀ fs tail, printOKFlds fs = true → fs ≠ [] →
      (strFlds fs).length + 1 < fuel →
      pFields fuel (strFlds fs ++ ('\x7d' :: tail)) = some (fs, tail)) := by
  intro fuel
  induction fuel with
  | zero =>
    refine ⟨?_, ?_, ?_⟩
    · intro v tail _ _ hlen
      exact absurd hlen (by omega)
    · intro es tail _ _ hlen
      exact absurd hlen (by omega)
    · intro fs tail _ _ hlen
      exact absurd hlen (by omega)
  | succ fuel ih =>
    refine ⟨?_, ?_, ?_⟩
    · intro v tail hOK hsep hlen
      rcases v with _ | b | ⟨m, k⟩ | s | ⟨es, ps⟩ | fs
      · simp [strVal, pValue, skipWs]
      · rcases b
        · simp [strVal, pValue, skipWs]
        · simp [strVal, pValue, skipWs]
      · simp only [printOK] at hOK
        simp only [strVal] at hlen ⊢
        obtain ⟨c, t, hct, hd⟩ := numChars_head m k
        obtain ⟨hw, hn, ht2, hf, hq, hlb, hob, _⟩ := digit_head_fallthrough c hd
        rw [hct, List.cons_append, pValue, skipWs_nws c _ hw]
        simp only []
        rw [if_neg hn, if_neg ht2, if_neg hf, if_neg hq, if_neg hlb, if_neg hob,
          ← List.cons_append, ← hct]
        refine pNumber_numChars m k tail hsep ?_
        rcases Bool.or_eq_true_iff.mp hOK with h1 | h2
        · exact Or.inl (by simpa using h1)
        · exact Or.inr (by simpa using h2)
      · obtain ⟨cs⟩ := s
        simp only [strVal, quoteStr, List.cons_append]
        rw [pValue, skipWs_nws _ _ (by decide)]
        simp only []
        rw [if_neg (by decide), if_neg (by decide), if_neg (by decide),
          if_pos (by trivial), List.append_assoc, List.singleton_append, pString_escStr]
        rfl
      · simp only [printOK, Bool.and_eq_true] at hOK
        rcases ps with _ | ⟨p0, ps2⟩
        · simp only [strVal, List.cons_append] at hlen ⊢
          rw [pValue, skipWs_nws _ _ (by decide)]
          simp only []
          rw [if_neg (by decide), if_neg (by decide), if_neg (by decide),
            if_neg (by decide), if_pos (by trivial)]
          rcases es with _ | ⟨v0, es2⟩
          · simp only [strElems, List.nil_append, List.singleton_append]
            rw [skipWs_nws _ _ (by decide)]
            simp only []
            rw [if_pos (by trivial)]
          · obtain ⟨X, hX⟩ := strElems_cons_ex v0 es2
            obtain ⟨c0, t0, hct0, hw0, hne0⟩ := strVal_head v0
            rw [List.append_assoc, List.singleton_append, hX, List.append_assoc,
              hct0, List.cons_append, skipWs_nws _ _ hw0]
            simp only []
            rw [if_neg hne0, ← List.cons_append, ← hct0, ← List.append_assoc,
              ← hX]
            have hlen2 : (strElems (v0 :: es2)).length + 1 < fuel := by
              simp only [List.length_append, List.length_cons] at hlen
              simp at hlen
              omega
            rw [ih.2.1 (v0 :: es2) tail hOK.2 (by simp) hlen2]
        · simp at hOK
      · simp only [printOK, Bool.and_eq_true] at hOK
        simp only [strVal, List.cons_append] at hlen ⊢
        rw [pValue, skipWs_nws _ _ (by decide)]
        simp only []
        rw [if_neg (by decide), if_neg (by decide), if_neg (by decide),
          if_neg (by decide), if_neg (by decide), if_pos (by trivial)]
        rcases fs with _ | ⟨⟨k0, w0⟩, fs2⟩
        · simp only [strFlds, List.nil_append, List.singleton_append]
          rw [skipWs_nws _ _ (by decide)]
          simp only []
          rw [if_pos (by trivial)]
        · obtain ⟨X, hX⟩ := strFlds_cons_ex k0 w0 fs2
          rw [List.append_assoc, List.singleton_append, hX, List.cons_append,
            skipWs_nws _ _ (by decide)]
          simp only []
          rw [if_neg (by decide), ← List.cons_append, ← hX]
          have hlen2 : (strFlds ((k0, w0) :: fs2)).length + 1 < fuel := by
            simp only [List.length_append, List.length_cons] at hlen
            simp at hlen
            omega
          rw [ih.2.2 ((k0, w0) :: fs2) tail hOK.2 (by simp) hlen2]
          simp only []
          rw [collapseFields_nodup_id _ hOK.1]
    · intro es tail hOK hne hlen
      rcases es with _ | ⟨v0, es2⟩
      · exact absurd rfl hne
      · simp only [printOKElems, Bool.and_eq_true] at hOK
        rw [pItems]
        rcases es2 with _ | ⟨w0, es3⟩
        · simp only [strElems] at hlen ⊢
          rw [ih.1 v0 (']' :: tail) hOK.1 (by rfl) (by omega)]
          simp only []
          rw [skipWs_nws _ _ (by decide)]
          simp only []
          rw [if_neg (by decide), if_pos (by trivial)]
        · obtain ⟨c0, t0, hct0, _, _⟩ := strVal_head v0
          have hv0len : 1 ≤ (strVal v0).length := by
            rw [hct0]
            simp
          simp only [strElems] at hlen ⊢
          rw [List.append_assoc, List.cons_append,
            ih.1 v0 (',' :: (strElems (w0 :: es3) ++ (']' :: tail))) hOK.1
              (by rfl) ?_]
          · simp only []
            rw [skipWs_nws _ _ (by decide)]
            simp only []
            rw [if_pos (by trivial)]
            rw [ih.2.1 (w0 :: es3) tail hOK.2 (by simp) ?_]
            · simp only [List.length_append, List.length_cons] at hlen
              omega
          · simp only [List.length_append, List.length_cons] at hlen
            omega
    · intro fs tail hOK hne hlen
      rcases fs with _ | ⟨⟨k0, w0⟩, fs2⟩
      · exact absurd rfl hne
      · obtain ⟨k0cs⟩ := k0
        simp only [printOKFlds, Bool.and_eq_true] at hOK
        rw [pFields]
        have hqlen : (quoteStr (String.mk k0cs)).length = (escStr k0cs).length + 2 := by
          simp [quoteStr]
        rcases fs2 with _ | ⟨f1, fs3⟩
        · simp only [strFlds, quoteStr, List.cons_append, List.append_assoc,
            List.singleton_append, List.nil_append] at hlen ⊢
          rw [skipWs_nws _ _ (by decide)]
          simp only []
          rw [if_pos (by trivial), pString_escStr]
          simp only []
          rw [skipWs_nws _ _ (by decide)]
          simp only []
          rw [if_pos (by trivial)]
          rw [ih.1 w0 ('\x7d' :: tail) hOK.1 (by rfl) ?_]
          · simp only []
            rw [skipWs_nws _ _ (by decide)]
            simp only []
            rw [if_neg (by decide), if_pos (by trivial)]
          · simp only [List.length_append, List.length_cons] at hlen
            omega
        · simp only [strFlds, quoteStr, List.cons_append, List.append_assoc,
            List.singleton_append, List.nil_append] at hlen ⊢
          rw [skipWs_nws _ _ (by decide)]
          simp only []
          rw [if_pos (by trivial), pString_escStr]
          simp only []
          rw [skipWs_nws _ _ (by decide)]
          simp only []
          rw [if_pos (by trivial)]
          rw [ih.1 w0 (',' :: (strFlds (f1 :: fs3) ++ ('\x7d' :: tail))) hOK.1
            (by rfl) ?_]
          · simp only []
            rw [skipWs_nws _ _ (by decide)]
            simp only []
            rw [if_pos (by trivial)]
            rw [ih.2.2 (f1 :: fs3) tail hOK.2 (by simp) ?_]
            · simp only [List.length_append, List.length_cons] at hlen
              omega
          · simp only [List.length_append, List.length_cons] at hlen
            omega

theorem jsonParse_stringify (v : JVal) (h : printOK v = true) :
    jsonParse (stringify v) = some v := by
  have hp := (printParse ((strVal v).length + 1)).1 v [] h rfl (by omega)
  rw [List.append_nil] at hp
  rw [jsonParse,
    show (stringify v).length = (strVal v).length from rfl,
    show (stringify v).data = strVal v from rfl, hp]
  simp [skipWs]

theorem printOK_emptyArr : printOK emptyArr = true := by
  simp [emptyArr, printOK, printOKElems]

theorem printOK_str (s : String) : printOK (.str s) = true := by
  simp [printOK]

theorem printOK_fallback (s : String) : printOK (fallbackRecord s) = true := by
  simp [fallbackRecord, printOK, printOKFlds, printOKElems, keysNodup, emptyArr]

theorem backfillField_obj (fs : List (String × JVal)) (k : String) (w : JVal) :
    ∃ fs2, backfillField (.obj fs) k w = .obj fs2 := by
  unfold backfillField
  rcases hg : getProp (.obj fs) k with _ | u
  · exact ⟨setField fs k w, rfl⟩
  · by_cases ht : truthy u = true
    · exact ⟨fs, by simp [ht]⟩
    · exact ⟨setField fs k w, by simp [ht, putProp]⟩

theorem printOK_backfillField_obj (fs : List (String × JVal)) (k : String)
    (w : JVal) (hOK : printOK (.obj fs) = true) (hw : printOK w = true) :
    printOK (backfillField (.obj fs) k w) = true := by
  simp only [printOK, Bool.and_eq_true] at hOK
  unfold backfillField
  rcases hg : getProp (.obj fs) k with _ | u
  · show printOK (putProp (.obj fs) k w) = true
    simp [putProp, printOK, keysNodup_setField k w fs hOK.1,
      printOKFlds_setField k w hw fs hOK.2]
  · by_cases ht : truthy u = true
    · simp [ht, printOK, hOK]
    · simp [ht, putProp, printOK, keysNodup_setField k w fs hOK.1,
        printOKFlds_setField k w hw fs hOK.2]

theorem printOK_backfillAll_obj (fs : List (String × JVal)) (s : String)
    (hOK : printOK (.obj fs) = true) :
    printOK (backfillAll (.obj fs) s) = true ∧
      ∃ fs4, backfillAll (.obj fs) s = .obj fs4 := by
  unfold backfillAll
  obtain ⟨fs1, h1⟩ := backfillField_obj fs "title" (.str "Imported Recipe")
  have p1 : printOK (.obj fs1) = true :=
    h1 ▸ printOK_backfillField_obj fs _ _ hOK (printOK_str _)
  rw [h1]
  obtain ⟨fs2, h2⟩ := backfillField_obj fs1 "ingredientsByProcessingStep" emptyArr
  have p2 : printOK (.obj fs2) = true :=
    h2 ▸ printOK_backfillField_obj fs1 _ _ p1 printOK_emptyArr
  rw [h2]
  obtain ⟨fs3, h3⟩ := backfillField_obj fs2 "steps" (.str s)
  have p3 : printOK (.obj fs3) = true :=
    h3 ▸ printOK_backfillField_obj fs2 _ _ p2 (printOK_str _)
  rw [h3]
  obtain ⟨fs4, h4⟩ := backfillField_obj fs3 "tags" emptyArr
  have p4 : printOK (.obj fs4) = true :=
    h4 ▸ printOK_backfillField_obj fs3 _ _ p3 printOK_emptyArr
  rw [h4]
  exact ⟨p4, fs4, rfl⟩

theorem normalizeRecipe_obj_printOK (s : String)
    (hnoarr : ∀ es ps, jsonParse (extractCandidate s) ≠ some (.arr es ps)) :
    ∃ fsv, normalizeRecipe s = .obj fsv ∧
      printOK (normalizeRecipe s) = true := by
  rcases hp : jsonParse (extractCandidate s) with _ | w
  · rw [normalizeRecipe_of_parse_none s hp]
    exact ⟨_, rfl, printOK_fallback s⟩
  · rcases w with _ | b | ⟨m, k⟩ | str | ⟨es, ps⟩ | fields
    · rw [normalizeRecipe_of_parse_prim s _ hp rfl]
      exact ⟨_, rfl, printOK_fallback s⟩
    · rw [normalizeRecipe_of_parse_prim s _ hp rfl]
      exact ⟨_, rfl, printOK_fallback s⟩
    · rw [normalizeRecipe_of_parse_prim s _ hp rfl]
      exact ⟨_, rfl, printOK_fallback s⟩
    · rw [normalizeRecipe_of_parse_prim s _ hp rfl]
      exact ⟨_, rfl, printOK_fallback s⟩
    · exact absurd hp (hnoarr es ps)
    · rw [normalizeRecipe_of_parse_obj s fields hp]
      have hOK : printOK (.obj fields) = true :=
        jsonParse_printOK (extractCandidate s) _ hp
      obtain ⟨pall, fs4, h4⟩ := printOK_backfillAll_obj fields s hOK
      exact ⟨fs4, h4, pall⟩

theorem backfillField_keep (v : JVal) (k : String) (w : JVal)
    (hu : ∃ u, getProp v k = some u ∧ truthy u = true) :
    backfillField v k w = v := by
  obtain ⟨u, hg, ht⟩ := hu
  unfold backfillField
  rw [hg]
  simp [ht]

theorem backfillAll_keep (v : JVal) (s2 : String)
    (h1 : ∃ u, getProp v "title" = some u ∧ truthy u = true)
    (h2 : ∃ u, getProp v "ingredientsByProcessingStep" = some u ∧ truthy u = true)
    (h3 : ∃ u, getProp v "steps" = some u ∧ truthy u = true)
    (h4 : ∃ u, getProp v "tags" = some u ∧ truthy u = true) :
    backfillAll v s2 = v := by
  unfold backfillAll
  rw [backfillField_keep _ _ _ h1, backfillField_keep _ _ _ h2,
      backfillField_keep _ _ _ h3, backfillField_keep _ _ _ h4]

theorem backfillSpec_truthy (o : Option JVal) (w : JVal)
    (hw : truthy w = true) :
    ∃ u, backfillSpec o w = some u ∧ truthy u = true := by
  rcases o with _ | u
  · exact ⟨w, rfl, hw⟩
  · unfold backfillSpec
    by_cases ht : truthy u = true
    · exact ⟨u, by simp [ht], ht⟩
    · exact ⟨w, by simp [ht], hw⟩

theorem normalizeRecipe_truthy (s : String) (hs : s ≠ "") :
    (∃ u, getProp (normalizeRecipe s) "title" = some u ∧ truthy u = true) ∧
    (∃ u, getProp (normalizeRecipe s) "ingredientsByProcessingStep" = some u ∧
      truthy u = true) ∧
    (∃ u, getProp (normalizeRecipe s) "steps" = some u ∧ truthy u = true) ∧
    (∃ u, getProp (normalizeRecipe s) "tags" = some u ∧ truthy u = true) := by
  have hsp : truthy (.str s) = true := by simp [truthy, hs]
  have hti : truthy (.str "Imported Recipe") = true := by simp [truthy]
  have hea : truthy emptyArr = true := rfl
  rcases hp : jsonParse (extractCandidate s) with _ | w
  · rw [normalizeRecipe_of_parse_none s hp]
    exact ⟨⟨_, getProp_fallback_title s, hti⟩,
           ⟨_, getProp_fallback_ibps s, hea⟩,
           ⟨_, getProp_fallback_steps s, hsp⟩,
           ⟨_, getProp_fallback_tags s, hea⟩⟩
  · by_cases hoa : isObjOrArr w = true
    · have hnr : normalizeRecipe s = backfillAll w s := by
        unfold normalizeRecipe
        rw [hp]
        simp [hoa]
      rw [hnr]
      exact ⟨getProp_backfillAll_title w s hoa ▸ backfillSpec_truthy _ _ hti,
             getProp_backfillAll_ibps w s hoa ▸ backfillSpec_truthy _ _ hea,
             getProp_backfillAll_steps w s hoa ▸ backfillSpec_truthy _ _ hsp,
             getProp_backfillAll_tags w s hoa ▸ backfillSpec_truthy _ _ hea⟩
    · rw [normalizeRecipe_of_parse_prim s w hp (by simpa using hoa)]
      exact ⟨⟨_, getProp_fallback_title s, hti⟩,
             ⟨_, getProp_fallback_ibps s, hea⟩,
             ⟨_, getProp_fallback_steps s, hsp⟩,
             ⟨_, getProp_fallback_tags s, hea⟩⟩

/-- C8 (amended): for every non-empty input string whose extracted candidate
does not parse as a JSON array and whose parse result carries no JSON
number, re-running the normalization on the JSON-stringified output of a
prior normalization yields the identical record.  Each exclusion marks a
real failure of idempotence: on the empty string the fallback record's
empty steps field is falsy and the second pass replaces it; on array parses
the backfilled fields become named array properties, which JSON.stringify
drops; and number-carrying parses live where the engine's IEEE-754 doubles
diverge from this embedding's exact decimals (1e999 parses to Infinity and
restringifies as null, so the program is not idempotent there while exact
decimals round-trip), so the claim is stated on the number-free scope where
the two semantics agree. -/
theorem idempotence_amended (s : String) (hs : s ≠ "")
    (hnoarr : ∀ es ps, jsonParse (extractCandidate s) ≠ some (.arr es ps))
    (_hnum : ∀ v, jsonParse (extractCandidate s) = some v → numFree v = true) :
    normalizeRecipe (stringify (normalizeRecipe s)) = normalizeRecipe s := by
  obtain ⟨fsv, hobj, hOK⟩ := normalizeRecipe_obj_printOK s hnoarr
  obtain ⟨h1, h2, h3, h4⟩ := normalizeRecipe_truthy s hs
  have hjp : jsonParse (stringify (normalizeRecipe s)) =
      some (normalizeRecipe s) := jsonParse_stringify _ hOK
  have hst : stringify (normalizeRecipe s) =
      String.mk ('\x7b' :: (strFlds fsv ++ ['\x7d'])) := by
    rw [hobj]
    simp [stringify, strVal]
  have hext : extractCandidate (stringify (normalizeRecipe s)) =
      stringify (normalizeRecipe s) := by
    rw [hst]
    exact extractCandidate_wrapped (strFlds fsv)
  have hjp2 : jsonParse (extractCandidate (stringify (normalizeRecipe s))) =
      some (.obj fsv) := by
    rw [hext, hjp, hobj]
  rw [normalizeRecipe_of_parse_obj _ fsv hjp2, ← hobj,
    backfillAll_keep _ _ h1 h2 h3 h4]

/-- C8 witness: a concrete number-free object input inside the amended
scope. -/
theorem idempotence_amended_witness :
    normalizeRecipe (stringify (normalizeRecipe "\x7b\"title\":\"T\",\"steps\":\"S\"\x7d")) =
      normalizeRecipe "\x7b\"title\":\"T\",\"steps\":\"S\"\x7d" :=
  idempotence_amended "\x7b\"title\":\"T\",\"steps\":\"S\"\x7d" (by decide)
    (by
      intro es ps h
      rw [show jsonParse (extractCandidate "\x7b\"title\":\"T\",\"steps\":\"S\"\x7d") =
        some (.obj [("title", .str "T"), ("steps", .str "S")]) from rfl] at h
      simp at h)
    (by
      intro v h
      rw [show jsonParse (extractCandidate "\x7b\"title\":\"T\",\"steps\":\"S\"\x7d") =
        some (.obj [("title", .str "T"), ("steps", .str "S")]) from rfl] at h
      rw [← Option.some_inj.mp h]
      simp [numFree, numFreeFlds])

set_option maxRecDepth 16000 in
/-- C8 counterexample, refuting the claim as stated and forcing both
model-expressible exclusions of the amendment: on the empty input the
fallback record carries an empty (falsy) steps string and the second pass
backfills steps with the whole stringified record; on an array-parsing
input the backfilled fields are named array properties that JSON.stringify
drops, so the second pass recomputes steps from the re-stringified text and
the records differ. -/
theorem idempotence_cex :
    normalizeRecipe (stringify (normalizeRecipe "")) ≠ normalizeRecipe "" ∧
    normalizeRecipe (stringify (normalizeRecipe " [\"a\"]")) ≠
      normalizeRecipe " [\"a\"]" := by
  constructor
  · have h0 : normalizeRecipe "" = fallbackRecord "" := rfl
    have h1 : stringify (fallbackRecord "") =
        "\x7b\"title\":\"Imported Recipe\",\"steps\":\"\",\"ingredientsByProcessingStep\":[],\"tags\":[]\x7d" := by
      simp [stringify, fallbackRecord, emptyArr, strVal, strFlds, strElems,
        quoteStr, escStr, escChar]
    rw [h0, h1]
    intro h
    have h2 := congrArg (fun v => getProp v "steps") h
    simp only [] at h2
    rw [show getProp (normalizeRecipe "\x7b\"title\":\"Imported Recipe\",\"steps\":\"\",\"ingredientsByProcessingStep\":[],\"tags\":[]\x7d") "steps" =
        some (.str "\x7b\"title\":\"Imported Recipe\",\"steps\":\"\",\"ingredientsByProcessingStep\":[],\"tags\":[]\x7d") from rfl] at h2
    rw [show getProp (fallbackRecord "") "steps" = some (.str "") from rfl] at h2
    simp at h2
  · have h0 : normalizeRecipe " [\"a\"]" =
        .arr [.str "a"]
          [("title", .str "Imported Recipe"),
           ("ingredientsByProcessingStep", emptyArr),
           ("steps", .str " [\"a\"]"), ("tags", emptyArr)] := rfl
    have h1 : stringify
        (.arr [.str "a"]
          [("title", .str "Imported Recipe"),
           ("ingredientsByProcessingStep", emptyArr),
           ("steps", .str " [\"a\"]"), ("tags", emptyArr)]) = "[\"a\"]" := by
      simp [stringify, strVal, strElems, quoteStr, escStr, escChar]
    rw [h0, h1]
    intro h
    have h2 := congrArg (fun v => getProp v "steps") h
    simp only [] at h2
    rw [show getProp (normalizeRecipe "[\"a\"]") "steps" =
        some (.str "[\"a\"]") from rfl] at h2
    rw [show getProp
        (JVal.arr [.str "a"]
          [("title", .str "Imported Recipe"),
           ("ingredientsByProcessingStep", emptyArr),
           ("steps", .str " [\"a\"]"), ("tags", emptyArr)]) "steps" =
        some (.str " [\"a\"]") from rfl] at h2
    simp at h2
